import Mathlib

/-!
# Verification of the tile-grid pursuit game (`game.py`)

Shallow embedding of the maze grid, BFS path finder, player/ghost motion and
the per-tick session logic of the single-file pygame program, together with
proofs and refutations of the specification claims C1–C10.

Conventions of the embedding:
* tiles are `(row, column) : ℤ × ℤ` exactly as the Python `(r, c)` pairs;
* pixel positions are `(x, y) : ℚ × ℚ` (the Python code uses float
  `pygame.Vector2`; we embed the same affine arithmetic over `ℚ` and model the
  float-normalised step `pos += to_target.normalize() * move_pixels` by the
  exact point `pos + s • (target - pos)` it approximates, `0 ≤ s < 1`, with
  `s = 1` being the snap-to-tile branch);
* the BFS queue/`came` dictionary are a `List` and an association list;
  the unbounded `while q:` loop is run on explicit fuel, and we prove the
  fuel bound `2 * (ROWS * COLS + 1)` is never exhausted (claim C10).
-/

set_option maxRecDepth 100000

unseal Rat.mul Rat.add Rat.sub Rat.inv

namespace PacMan

/-- A tile address `(row, column)`, as the Python `(r, c)` pairs. -/
abbrev Tile : Type := ℤ × ℤ

/-- `TILE = 16`, tile size in pixels. -/
def TILE : ℤ := 16

/-- `COLS = 28`. -/
def COLS : ℤ := 28

/-- `ROWS = 31`. -/
def ROWS : ℤ := 31

/-- `PLAYER_SPEED = 5.0` (tiles per second). -/
def PLAYER_SPEED : ℚ := 5

/-- `GHOST_SPEED = 4.0` (tiles per second). -/
def GHOST_SPEED : ℚ := 4

/-- `FRIGHT_SPEED = 2.5` (tiles per second when frightened). -/
def FRIGHT_SPEED : ℚ := 5/2

/-- `POWER_DURATION = 8.0` seconds. -/
def POWER_DURATION : ℚ := 8

/-- The raw `MAP` text rows, verbatim from the source. -/
def rawMAP : List String :=
  [ "############ ###############"
  , "#............##............#"
  , "#.####.#####.##.#####.####.#"
  , "#o####.#####.##.#####.####o#"
  , "#.####.#####.##.#####.####.#"
  , "#..........................#"
  , "#.####.##.########.##.####.#"
  , "#.####.##.########.##.####.#"
  , "#......##....##....##......#"
  , "######.##### ## #####.######"
  , "     #.##### ## #####.#     "
  , "     #.##          ##.#     "
  , "     #.## ###--### ##.#     "
  , "######.## #      # ##.######"
  , "      .   # B  B #   .      "
  , "######.## #      # ##.######"
  , "     #.## ######## ##.#     "
  , "     #.##          ##.#     "
  , "     #.## ######## ##.#     "
  , "######.## #......# ##.######"
  , "#............##............#"
  , "#.####.#####.##.#####.####.#"
  , "#.####.#####.##.#####.####.#"
  , "#o..##................##..o#"
  , "###.##.##.########.##.##.###"
  , "###.##.##.########.##.##.###"
  , "#......##....##....##......#"
  , "#.##########.##.##########.#"
  , "#.#####   ##.##.##   #####.#"
  , "#..........................#"
  , "############ ###############" ]

/-- `MAP = [row.ljust(COLS)[:COLS] for row in MAP]`: every row padded with
spaces and truncated to exactly `COLS` characters, as a character grid. -/
def MAP : List (List Char) :=
  rawMAP.map (fun row => (row.data ++ List.replicate 28 ' ').take 28)

/-- Character of the map at tile `t`; only ever consulted at in-bounds tiles
(the Python indexing `MAP[r][c]` is always guarded by `in_bounds`), the
out-of-range default is arbitrary. -/
def mapChar (t : Tile) : Char :=
  (MAP.getD t.1.toNat []).getD t.2.toNat ' '

/-- `in_bounds(r, c)`. -/
def in_bounds (t : Tile) : Bool :=
  (0 ≤ t.1 && t.1 < ROWS) && (0 ≤ t.2 && t.2 < COLS)

/-- `is_wall(tile)`. -/
def is_wall (ch : Char) : Bool := ch = '#'

/-- An in-bounds, non-wall ("walkable") tile. -/
def openT (t : Tile) : Bool := in_bounds t && !is_wall (mapChar t)

/-- `neighbors(rc)`: the orthogonally adjacent walkable tiles, in the Python
generator's order up, down, left, right. -/
def neighbors (rc : Tile) : List Tile :=
  [(rc.1 - 1, rc.2), (rc.1 + 1, rc.2), (rc.1, rc.2 - 1), (rc.1, rc.2 + 1)].filter
    (fun t => in_bounds t && !is_wall (mapChar t))

/-- `player_start`: the map has no `'P'`, so the fallback scan from the bottom
row upwards over columns `COLS//2-3 .. COLS//2+2` finds `(30, 12)` (the open
gap in the bottom wall row). -/
def player_start : Tile := (30, 12)

/-- `ghost_starts`: the map has no `'1'..'4'`, so the defaults are used. -/
def ghost_starts (digit : Char) : Tile :=
  if digit = '1' then (13, 13)
  else if digit = '2' then (13, 14)
  else if digit = '3' then (13, 12)
  else (13, 15)

/-- `tile_center(tile)` as an exact pixel pair `(x, y)`. -/
def tile_center (t : Tile) : ℚ × ℚ :=
  ((t.2 * TILE + TILE / 2 : ℤ), (t.1 * TILE + TILE / 2 : ℤ))

section BFSDef

/-- The BFS `came` dictionary: an association list from tiles to their
parent (`none` marks the start, the Python `came = {start: None}`). -/
abbrev Came : Type := List (Tile × Option Tile)

/-- Dictionary lookup (`n in came` / `came[cur]`). -/
def alookup : Came → Tile → Option (Option Tile)
  | [], _ => none
  | (k, v) :: es, key => if key = k then some v else alookup es key

/-- The key set of the dictionary. -/
def akeys (came : Came) : List Tile := came.map Prod.fst

/-- One step of the Python path-reconstruction loop
`while cur is not None: path.append(cur); cur = came[cur]`, run on fuel.
The `came` invariants guarantee the lookup never misses, the chain reaches
`start` (whose parent is `None`) within `came.length` steps, and the fuel
is never exhausted. -/
def buildChain : ℕ → Came → Tile → List Tile
  | 0, _, _ => []
  | fuel + 1, came, cur =>
      cur :: (match alookup came cur with
              | some (some p) => buildChain fuel came p
              | _ => [])

/-- The `for n in neighbors(cur)` body of `bfs`: scans the neighbour list,
inserting unvisited tiles into `came` and the queue tail, and returns the
reconstructed path as soon as the goal is discovered. -/
def scanNbrs (goal cur : Tile) :
    List Tile → List Tile → Came →
    (List Tile × Came) ⊕ List Tile
  | [], q, came => Sum.inl (q, came)
  | n :: ns, q, came =>
      if (alookup came n).isSome then scanNbrs goal cur ns q came
      else
        let came' := (n, some cur) :: came
        if n = goal then
          Sum.inr ((n :: buildChain (came'.length + 1) came' cur).reverse)
        else scanNbrs goal cur ns (q ++ [n]) came'

/-- The `while q:` loop of `bfs`, on explicit fuel.  `none` is the
out-of-fuel marker (proved unreachable for fuel `2 * (ROWS*COLS + 1)`,
claim C10); `some none` is the Python `return None`. -/
def bfsAux (goal : Tile) : ℕ → List Tile → Came →
    Option (Option (List Tile))
  | 0, _, _ => none
  | _ + 1, [], _ => some none
  | fuel + 1, cur :: q, came =>
      match scanNbrs goal cur (neighbors cur) q came with
      | Sum.inr path => some (some path)
      | Sum.inl (q', came') => bfsAux goal fuel q' came'

/-- Fuel sufficient for the whole grid: `2 * (ROWS * COLS + 1)`. -/
def bfsFuel : ℕ := 2 * (31 * 28 + 1)

/-- `bfs(start, goal)`: BFS on the grid, returning the tile path from
`start` to `goal` inclusive, or `none` ("unreachable"). -/
def bfs (start goal : Tile) : Option (List Tile) :=
  if start = goal then some [start]
  else (bfsAux goal bfsFuel [start] [(start, none)]).join

end BFSDef

section Reachability

/-- `v` is a grid neighbour of `u` (an edge of the maze's walkability graph,
in the direction the BFS explores: `v ∈ neighbors u`). -/
def adjacent (u v : Tile) : Prop := v ∈ neighbors u

instance (u v : Tile) : Decidable (adjacent u v) := by
  unfold adjacent; infer_instance

/-- `reachN s n v`: there is a walk of exactly `n` grid steps from `s`
to `v`. -/
def reachN (s : Tile) : ℕ → Tile → Prop
  | 0, v => v = s
  | n + 1, v => ∃ w, reachN s n w ∧ adjacent w v

/-- `v` is reachable from `s` over the maze graph. -/
def reach (s v : Tile) : Prop := ∃ n, reachN s n v

/-- `n` is the true shortest grid-distance from `s` to `v`. -/
def distIs (s v : Tile) (n : ℕ) : Prop :=
  reachN s n v ∧ ∀ m, reachN s m v → n ≤ m

theorem adjacent_open {u v : Tile} (h : adjacent u v) : openT v := by
  unfold adjacent neighbors at h
  simp only [List.mem_filter] at h
  simpa [openT] using h.2

theorem reachN_self (s : Tile) : reachN s 0 s := rfl

theorem reach_self (s : Tile) : reach s s := ⟨0, rfl⟩

theorem reach_of_reachN {s v : Tile} {n : ℕ} (h : reachN s n v) : reach s v :=
  ⟨n, h⟩

theorem reachN_succ {s w v : Tile} {n : ℕ} (h : reachN s n w)
    (ha : adjacent w v) : reachN s (n + 1) v := ⟨w, h, ha⟩

theorem distIs_unique {s v : Tile} {n m : ℕ} (h1 : distIs s v n)
    (h2 : distIs s v m) : n = m :=
  Nat.le_antisymm (h1.2 m h2.1) (h2.2 n h1.1)

theorem distIs_self (s : Tile) : distIs s s 0 :=
  ⟨rfl, fun m _ => Nat.zero_le m⟩

theorem exists_distIs {s v : Tile} (h : reach s v) : ∃ n, distIs s v n := by
  classical
  exact ⟨Nat.find h, Nat.find_spec h, fun m hm => Nat.find_min' h hm⟩

/-- Shortest distances of adjacent tiles differ by at most one step. -/
theorem distIs_le_of_adjacent {s u v : Tile} {du dv : ℕ}
    (hu : distIs s u du) (hv : distIs s v dv) (ha : adjacent u v) :
    dv ≤ du + 1 :=
  hv.2 (du + 1) (reachN_succ hu.1 ha)

end Reachability

section BFSLemmas

/-- Generic: a duplicate-free list contained in another list is no longer. -/
theorem nodup_sub_length {l L : List Tile} (hn : l.Nodup)
    (hsub : ∀ x ∈ l, x ∈ L) : l.length ≤ L.length := by
  calc l.length = l.toFinset.card := (List.toFinset_card_of_nodup hn).symm
    _ ≤ L.toFinset.card := by
        apply Finset.card_le_card
        intro x hx
        rw [List.mem_toFinset] at hx ⊢
        exact hsub x hx
    _ ≤ L.length := L.toFinset_card_le

theorem alookup_isSome {came : Came} {k : Tile} :
    (alookup came k).isSome ↔ k ∈ akeys came := by
  induction came with
  | nil => simp [alookup, akeys]
  | cons e es ih =>
      obtain ⟨a, v⟩ := e
      by_cases h : k = a <;> simp [alookup, akeys, h, ih]

theorem akeys_cons {n : Tile} {v : Option Tile} {came : Came} :
    akeys ((n, v) :: came) = n :: akeys came := rfl

theorem alookup_cons_ne {n k : Tile} {v : Option Tile} {came : Came}
    (h : k ≠ n) : alookup ((n, v) :: came) k = alookup came k := by
  simp [alookup, h]

theorem alookup_cons_self {n : Tile} {v : Option Tile} {came : Came} :
    alookup ((n, v) :: came) n = some v := by
  simp [alookup]

/-- The full `31 × 28` grid as a finite set (for cardinality bounds). -/
def gridFinset : Finset Tile := (Finset.Icc (0 : ℤ) 30) ×ˢ (Finset.Icc (0 : ℤ) 27)

theorem gridFinset_card : gridFinset.card = 868 := by
  rw [gridFinset, Finset.card_product, Int.card_Icc, Int.card_Icc]
  rfl

theorem open_in_bounds {t : Tile} (h : openT t = true) : in_bounds t = true := by
  unfold openT at h
  exact (Bool.and_eq_true _ _).mp h |>.1

theorem mem_gridFinset {t : Tile} (h : in_bounds t = true) : t ∈ gridFinset := by
  obtain ⟨r, c⟩ := t
  simp only [in_bounds, ROWS, COLS, Bool.and_eq_true, decide_eq_true_eq] at h
  simp only [gridFinset, Finset.mem_product, Finset.mem_Icc]
  omega

/-- The `came` dictionary can never hold more than one entry per grid tile
plus the (possibly out-of-grid) start. -/
theorem keysBound {came : Came} {s : Tile} (hn : (akeys came).Nodup)
    (hsub : ∀ k ∈ akeys came, k = s ∨ openT k) : came.length ≤ 869 := by
  have hlen : came.length = (akeys came).length := (List.length_map _ _).symm
  have hsubF : (akeys came).toFinset ⊆ insert s gridFinset := by
    intro x hx
    rw [List.mem_toFinset] at hx
    rcases hsub x hx with h | h
    · rw [h]; exact Finset.mem_insert_self _ _
    · exact Finset.mem_insert_of_mem (mem_gridFinset (open_in_bounds h))
  calc came.length = (akeys came).toFinset.card := by
        rw [hlen, List.toFinset_card_of_nodup hn]
    _ ≤ (insert s gridFinset).card := Finset.card_le_card hsubF
    _ ≤ gridFinset.card + 1 := Finset.card_insert_le _ _
    _ = 869 := by rw [gridFinset_card]

/-- A dictionary whose keys are closed under `neighbors` and contain `s`
contains everything reachable from `s`. -/
theorem reachClosed {came : Came} {s : Tile}
    (hcl : ∀ k ∈ akeys came, ∀ n ∈ neighbors k, n ∈ akeys came)
    (hs : s ∈ akeys came) : ∀ m v, reachN s m v → v ∈ akeys came := by
  intro m
  induction m with
  | zero => intro v hv; rw [show v = s from hv]; exact hs
  | succ m ih =>
      rintro v ⟨w, hw, ha⟩
      exact hcl w (ih w hw) v ha

/-- If `v` is reachable in `m` steps but not yet visited, some vertex on the
way is still in the queue (or is the currently expanded vertex) and has
distance below `m`. -/
theorem frontier {came : Came} {q : List Tile} {s cur : Tile}
    (hproc : ∀ k ∈ akeys came, k ∉ q →
      k = cur ∨ ∀ n ∈ neighbors k, n ∈ akeys came)
    (hs : s ∈ akeys came) :
    ∀ m v, reachN s m v → v ∉ akeys came →
      ∃ u du, (u ∈ q ∨ u = cur) ∧ distIs s u du ∧ du + 1 ≤ m := by
  intro m
  induction m with
  | zero =>
      intro v hv hnv
      rw [show v = s from hv] at hnv
      exact absurd hs hnv
  | succ m ih =>
      rintro v ⟨w, hw, ha⟩ hnv
      by_cases hwk : w ∈ akeys came
      · have hwq : w ∈ q ∨ w = cur := by
          by_cases hq : w ∈ q
          · exact Or.inl hq
          · rcases hproc w hwk hq with h | h
            · exact Or.inr h
            · exact absurd (h v ha) hnv
        obtain ⟨dw, hdw⟩ := exists_distIs ⟨m, hw⟩
        have : dw ≤ m := hdw.2 m hw
        exact ⟨w, dw, hwq, hdw, by omega⟩
      · obtain ⟨u, du, h1, h2, h3⟩ := ih w hw hwk
        exact ⟨u, du, h1, h2, by omega⟩

end BFSLemmas

section BFSInvariant

/-- The queue ordering relation: earlier entries are no farther from the
start than later ones. -/
def sortRel (s : Tile) (u v : Tile) : Prop :=
  ∀ du dv, distIs s u du → distIs s v dv → du ≤ dv

/-- What claim C1 demands of a returned path: it runs from `s` to `goal`,
follows grid adjacency (hence open tiles, except possibly the start), and its
length is the true shortest grid-distance plus one. -/
def pathGood (s goal : Tile) (path : List Tile) : Prop :=
  ∃ d, distIs s goal d ∧ path.length = d + 1 ∧ path.head? = some s ∧
    path.getLast? = some goal ∧ path.Chain' adjacent ∧
    ∀ t ∈ path, t = s ∨ openT t = true

/-- Loop invariant, `came`-dictionary part. -/
structure CameInv (s : Tile) (came : Came) : Prop where
  nodupK : (akeys came).Nodup
  startK : alookup came s = some none
  noneK : ∀ k, alookup came k = some none → k = s
  reachK : ∀ k ∈ akeys came, ∃ d, distIs s k d
  parentK : ∀ k p, alookup came k = some (some p) →
    adjacent p k ∧ p ∈ akeys came ∧
    ∀ dk dp, distIs s k dk → distIs s p dp → dk = dp + 1
  openK : ∀ k ∈ akeys came, k = s ∨ openT k = true

/-- Loop invariant of the `while q:` loop. -/
structure Inv (s goal : Tile) (q : List Tile) (came : Came) : Prop where
  cameI : CameInv s came
  goalI : goal ∉ akeys came
  qSub : ∀ u ∈ q, u ∈ akeys came
  qSorted : q.Pairwise (sortRel s)
  qSpread : ∀ u ∈ q, ∀ v ∈ q, ∀ du dv,
    distIs s u du → distIs s v dv → dv ≤ du + 1
  procK : ∀ k ∈ akeys came, k ∉ q → ∀ n ∈ neighbors k, n ∈ akeys came

theorem CameInv.sMem {s : Tile} {came : Came} (h : CameInv s came) :
    s ∈ akeys came := by
  rw [← alookup_isSome]
  rw [h.startK]
  rfl

/-- Every visited tile at distance `d` yields `d + 1` distinct visited
ancestors, so `d < came.length`. -/
theorem distLtLen {s : Tile} {came : Came} (hC : CameInv s came) :
    ∀ dk k, distIs s k dk → k ∈ akeys came → dk < came.length := by
  have key : ∀ dk k, distIs s k dk → k ∈ akeys came →
      ∃ l : List Tile, l.Nodup ∧ (∀ x ∈ l, x ∈ akeys came) ∧
        l.length = dk + 1 ∧ (∀ x ∈ l, ∃ dx, distIs s x dx ∧ dx ≤ dk) := by
    intro dk
    induction dk with
    | zero =>
        intro k hk hmem
        exact ⟨[k], List.nodup_singleton k, by simpa using hmem, rfl,
          by intro x hx; rw [List.mem_singleton] at hx; exact ⟨0, hx ▸ hk, le_refl 0⟩⟩
    | succ d ih =>
        intro k hk hmem
        have hsome : (alookup came k).isSome := alookup_isSome.mpr hmem
        cases hv : alookup came k with
        | none => rw [hv] at hsome; exact absurd hsome (by simp)
        | some v =>
            cases v with
            | none =>
                have hks : k = s := hC.noneK k hv
                have : d + 1 = 0 := distIs_unique hk (hks ▸ distIs_self s)
                omega
            | some p =>
                obtain ⟨hadj, hpmem, heq⟩ := hC.parentK k p hv
                obtain ⟨dp, hdp⟩ := hC.reachK p hpmem
                have hdpd : dp = d := by have := heq (d + 1) dp hk hdp; omega
                obtain ⟨l', hn', hm', hl', hd'⟩ := ih p (hdpd ▸ hdp) hpmem
                refine ⟨k :: l', ?_, ?_, by simp [hl'], ?_⟩
                · rw [List.nodup_cons]
                  refine ⟨?_, hn'⟩
                  intro hkin
                  obtain ⟨dx, hdx, hle⟩ := hd' k hkin
                  have : d + 1 = dx := distIs_unique hk hdx
                  omega
                · intro x hx
                  rcases List.mem_cons.mp hx with h | h
                  · exact h ▸ hmem
                  · exact hm' x h
                · intro x hx
                  rcases List.mem_cons.mp hx with h | h
                  · exact ⟨d + 1, h ▸ hk, le_refl _⟩
                  · obtain ⟨dx, hdx, hle⟩ := hd' x h
                    exact ⟨dx, hdx, by omega⟩
  intro dk k hk hmem
  obtain ⟨l, hn, hm, hl, _⟩ := key dk k hk hmem
  have h1 : l.length ≤ (akeys came).length := nodup_sub_length hn hm
  have h2 : (akeys came).length = came.length := List.length_map _ _
  omega

/-- Correctness of the Python path-reconstruction loop: starting from a
visited tile at distance `dk` it yields the reversed shortest chain back to
the start. -/
theorem chainSpec {s : Tile} {came : Came} (hC : CameInv s came) :
    ∀ dk fuel k, distIs s k dk → k ∈ akeys came → dk < fuel →
      ∃ l, buildChain fuel came k = l ∧ l.head? = some k ∧
        l.getLast? = some s ∧ List.Chain' (fun a b => adjacent b a) l ∧
        l.length = dk + 1 ∧ (∀ x ∈ l, x ∈ akeys came) := by
  intro dk
  induction dk with
  | zero =>
      intro fuel k hk hmem hfuel
      obtain ⟨f, rfl⟩ : ∃ f, fuel = f + 1 := ⟨fuel - 1, by omega⟩
      have hks : k = s := hk.1
      subst hks
      refine ⟨[k], ?_, rfl, rfl, List.chain'_singleton k, rfl, by simpa using hmem⟩
      simp [buildChain, hC.startK]
  | succ d ih =>
      intro fuel k hk hmem hfuel
      obtain ⟨f, rfl⟩ : ∃ f, fuel = f + 1 := ⟨fuel - 1, by omega⟩
      have hsome : (alookup came k).isSome := alookup_isSome.mpr hmem
      cases hv : alookup came k with
      | none => rw [hv] at hsome; exact absurd hsome (by simp)
      | some v =>
          cases v with
          | none =>
              have hks : k = s := hC.noneK k hv
              have : d + 1 = 0 := distIs_unique hk (hks ▸ distIs_self s)
              omega
          | some p =>
              obtain ⟨hadj, hpmem, heq⟩ := hC.parentK k p hv
              obtain ⟨dp, hdp⟩ := hC.reachK p hpmem
              have hdpd : dp = d := by have := heq (d + 1) dp hk hdp; omega
              obtain ⟨l', heq', hh', hg', hc', hl', hm'⟩ :=
                ih f p (hdpd ▸ hdp) hpmem (by omega)
              cases l' with
              | nil => simp at hl'
              | cons b t =>
                  have hbp : b = p := by simpa using hh'
                  refine ⟨k :: b :: t, ?_, rfl, ?_, ?_, by simpa using hl', ?_⟩
                  · simp only [buildChain, hv, heq']
                  · rw [List.getLast?_cons_cons]
                    simpa using hg'
                  · rw [List.chain'_cons]
                    exact ⟨hbp ▸ hadj, hc'⟩
                  · intro x hx
                    rcases List.mem_cons.mp hx with h | h
                    · exact h ▸ hmem
                    · exact hm' x h

/-- Specification of the neighbour scan: starting from a mid-iteration state
(current vertex `cur` at distance `dc` already popped), either the scan ends
with the invariant re-established and all neighbours of `cur` visited, or it
returns a `pathGood` shortest path to the goal. -/
theorem scanNbrs_spec (s goal cur : Tile) (dc : ℕ) (hdc : distIs s cur dc) :
    ∀ ns q came,
    CameInv s came →
    goal ∉ akeys came →
    cur ∈ akeys came →
    (∀ u ∈ q, u ∈ akeys came) →
    q.Pairwise (sortRel s) →
    (∀ u ∈ q, ∃ du, distIs s u du ∧ dc ≤ du ∧ du ≤ dc + 1) →
    (∀ k ∈ akeys came, k ∉ q →
      k = cur ∨ ∀ n ∈ neighbors k, n ∈ akeys came) →
    (∀ n ∈ ns, adjacent cur n) →
    (∀ n ∈ neighbors cur, n ∈ ns ∨ n ∈ akeys came) →
    (∀ q' came', scanNbrs goal cur ns q came = Sum.inl (q', came') →
       (∃ a, q' = q ++ a ∧ came'.length = came.length + a.length) ∧
       CameInv s came' ∧ goal ∉ akeys came' ∧
       (∀ u ∈ q', u ∈ akeys came') ∧
       q'.Pairwise (sortRel s) ∧
       (∀ u ∈ q', ∃ du, distIs s u du ∧ dc ≤ du ∧ du ≤ dc + 1) ∧
       (∀ k ∈ akeys came', k ∉ q' →
         k = cur ∨ ∀ n ∈ neighbors k, n ∈ akeys came') ∧
       (∀ n ∈ neighbors cur, n ∈ akeys came')) ∧
    (∀ path, scanNbrs goal cur ns q came = Sum.inr path →
       pathGood s goal path) := by
  intro ns
  induction ns with
  | nil =>
      intro q came hC hgoal hcur hqsub hqsort hwin hproc hns hprog
      constructor
      · intro q' came' heq
        simp only [scanNbrs, Sum.inl.injEq, Prod.mk.injEq] at heq
        obtain ⟨rfl, rfl⟩ := heq
        refine ⟨⟨[], by simp, by simp⟩, hC, hgoal, hqsub, hqsort, hwin, hproc, ?_⟩
        intro n hn
        rcases hprog n hn with h | h
        · exact absurd h (List.not_mem_nil n)
        · exact h
      · intro path heq
        exact absurd heq (by simp [scanNbrs])
  | cons n ns ih =>
      intro q came hC hgoal hcur hqsub hqsort hwin hproc hns hprog
      by_cases hvis : (alookup came n).isSome
      · -- already visited: skipped
        have hexp : scanNbrs goal cur (n :: ns) q came =
            scanNbrs goal cur ns q came := by
          simp [scanNbrs, hvis]
        have hprog' : ∀ x ∈ neighbors cur, x ∈ ns ∨ x ∈ akeys came := by
          intro x hx
          rcases hprog x hx with h | h
          · rcases List.mem_cons.mp h with rfl | h2
            · exact Or.inr (alookup_isSome.mp hvis)
            · exact Or.inl h2
          · exact Or.inr h
        have := ih q came hC hgoal hcur hqsub hqsort hwin hproc
          (fun x hx => hns x (List.mem_cons_of_mem n hx)) hprog'
        rw [hexp]
        exact this
      · -- fresh tile n
        have hfresh : n ∉ akeys came := fun hmem => hvis (alookup_isSome.mpr hmem)
        have hadjn : adjacent cur n := hns n (List.mem_cons_self n ns)
        have hopenn : openT n = true := adjacent_open hadjn
        have hnes : n ≠ s := fun h => hfresh (h ▸ hC.sMem)
        -- the fresh tile is exactly one step beyond the current layer
        have hdn : distIs s n (dc + 1) := by
          refine ⟨reachN_succ hdc.1 hadjn, ?_⟩
          intro m hm
          by_contra hcon
          push_neg at hcon
          obtain ⟨u, du, hu, hdu, hle⟩ := frontier hproc hC.sMem m n hm hfresh
          rcases hu with hq | rfl
          · obtain ⟨du', hdu', h1, h2⟩ := hwin u hq
            have := distIs_unique hdu hdu'
            omega
          · have := distIs_unique hdu hdc
            omega
        -- the dictionary extended with n
        have hC' : CameInv s ((n, some cur) :: came) := by
          refine ⟨?_, ?_, ?_, ?_, ?_, ?_⟩
          · rw [akeys_cons, List.nodup_cons]
            exact ⟨hfresh, hC.nodupK⟩
          · rw [alookup_cons_ne hnes.symm]  -- s ≠ n
            exact hC.startK
          · intro k hk
            by_cases hkn : k = n
            · subst hkn
              rw [alookup_cons_self] at hk
              exact absurd hk (by simp)
            · rw [alookup_cons_ne hkn] at hk
              exact hC.noneK k hk
          · intro k hk
            rw [akeys_cons] at hk
            rcases List.mem_cons.mp hk with rfl | hk2
            · exact ⟨dc + 1, hdn⟩
            · exact hC.reachK k hk2
          · intro k p hk
            by_cases hkn : k = n
            · rw [hkn] at hk
              rw [alookup_cons_self] at hk
              have hp : p = cur := by
                injection hk with h1
                injection h1 with h2
                exact h2.symm
              subst hp
              rw [hkn]
              refine ⟨hadjn, by rw [akeys_cons]; exact List.mem_cons_of_mem n hcur, ?_⟩
              intro dk dp h1 h2
              have e1 := distIs_unique h1 hdn
              have e2 := distIs_unique h2 hdc
              omega
            · rw [alookup_cons_ne hkn] at hk
              obtain ⟨h1, h2, h3⟩ := hC.parentK k p hk
              exact ⟨h1, by rw [akeys_cons]; exact List.mem_cons_of_mem n h2, h3⟩
          · intro k hk
            rw [akeys_cons] at hk
            rcases List.mem_cons.mp hk with rfl | hk2
            · exact Or.inr hopenn
            · exact hC.openK k hk2
        by_cases hng : n = goal
        · -- the goal is discovered: reconstruct the path
          subst hng
          constructor
          · intro q' came' heq
            simp [scanNbrs, hvis] at heq
          · intro path heq
            have hexp : scanNbrs n cur (n :: ns) q came =
                Sum.inr ((n :: buildChain (((n, some cur) :: came).length + 1)
                  ((n, some cur) :: came) cur).reverse) := by
              show (if (alookup came n).isSome then _ else _) = _
              rw [if_neg (by simpa using hvis)]
              show (if n = n then _ else _) = _
              rw [if_pos rfl]
            rw [hexp] at heq
            injection heq with heq
            subst heq
            -- the reconstructed chain from cur
            have hcur' : cur ∈ akeys ((n, some cur) :: came) := by
              rw [akeys_cons]; exact List.mem_cons_of_mem n hcur
            have hfl : dc < ((n, some cur) :: came).length + 1 := by
              have := distLtLen hC' dc cur hdc hcur'
              omega
            obtain ⟨l, hbc, hh, hg, hch, hlen, hmem⟩ :=
              chainSpec hC' dc (((n, some cur) :: came).length + 1) cur hdc hcur' hfl
            rw [hbc]
            cases l with
            | nil => simp at hlen
            | cons b t =>
                have hbp : b = cur := by simpa using hh
                refine ⟨dc + 1, hdn, ?_, ?_, ?_, ?_, ?_⟩
                · simp only [List.length_cons] at hlen
                  simp only [List.length_reverse, List.length_cons]
                  omega
                · rw [List.head?_reverse]
                  rw [List.getLast?_cons_cons]
                  simpa using hg
                · rw [List.getLast?_reverse]
                  rfl
                · rw [List.chain'_reverse]
                  rw [List.chain'_cons]
                  constructor
                  · exact hbp ▸ hadjn
                  · exact hch
                · intro x hx
                  rw [List.mem_reverse] at hx
                  rcases List.mem_cons.mp hx with rfl | hx2
                  · exact Or.inr hopenn
                  · rcases hC'.openK x (hmem x hx2) with h | h
                    · exact Or.inl h
                    · exact Or.inr h
        · -- fresh non-goal: inserted and appended to the queue
          have hexp : scanNbrs goal cur (n :: ns) q came =
              scanNbrs goal cur ns (q ++ [n]) ((n, some cur) :: came) := by
            simp [scanNbrs, hvis, hng]
          have hgoal' : goal ∉ akeys ((n, some cur) :: came) := by
            rw [akeys_cons]
            intro h
            rcases List.mem_cons.mp h with h2 | h2
            · exact hng h2.symm
            · exact hgoal h2
          have hcur' : cur ∈ akeys ((n, some cur) :: came) := by
            rw [akeys_cons]; exact List.mem_cons_of_mem n hcur
          have hqsub' : ∀ u ∈ q ++ [n], u ∈ akeys ((n, some cur) :: came) := by
            intro u hu
            rw [akeys_cons]
            rcases List.mem_append.mp hu with h | h
            · exact List.mem_cons_of_mem n (hqsub u h)
            · rw [List.mem_singleton] at h
              exact h ▸ List.mem_cons_self n _
          have hqsort' : (q ++ [n]).Pairwise (sortRel s) := by
            rw [List.pairwise_append]
            refine ⟨hqsort, List.pairwise_singleton _ n, ?_⟩
            intro u hu v hv
            rw [List.mem_singleton] at hv
            subst hv
            intro du dv h1 h2
            obtain ⟨du', hdu', hge, hle⟩ := hwin u hu
            have e1 := distIs_unique h1 hdu'
            have e2 := distIs_unique h2 hdn
            omega
          have hwin' : ∀ u ∈ q ++ [n],
              ∃ du, distIs s u du ∧ dc ≤ du ∧ du ≤ dc + 1 := by
            intro u hu
            rcases List.mem_append.mp hu with h | h
            · exact hwin u h
            · rw [List.mem_singleton] at h
              exact ⟨dc + 1, h ▸ hdn, by omega, le_refl _⟩
          have hproc' : ∀ k ∈ akeys ((n, some cur) :: came), k ∉ q ++ [n] →
              k = cur ∨ ∀ x ∈ neighbors k, x ∈ akeys ((n, some cur) :: came) := by
            intro k hk hknq
            rw [akeys_cons] at hk
            rcases List.mem_cons.mp hk with rfl | hk2
            · exact absurd (List.mem_append.mpr (Or.inr (List.mem_singleton.mpr rfl))) hknq
            · have hknq2 : k ∉ q := fun h => hknq (List.mem_append.mpr (Or.inl h))
              rcases hproc k hk2 hknq2 with h | h
              · exact Or.inl h
              · refine Or.inr ?_
                intro x hx
                rw [akeys_cons]
                exact List.mem_cons_of_mem n (h x hx)
          have hns' : ∀ x ∈ ns, adjacent cur x :=
            fun x hx => hns x (List.mem_cons_of_mem n hx)
          have hprog' : ∀ x ∈ neighbors cur,
              x ∈ ns ∨ x ∈ akeys ((n, some cur) :: came) := by
            intro x hx
            rcases hprog x hx with h | h
            · rcases List.mem_cons.mp h with rfl | h2
              · exact Or.inr (by rw [akeys_cons]; exact List.mem_cons_self x _)
              · exact Or.inl h2
            · exact Or.inr (by rw [akeys_cons]; exact List.mem_cons_of_mem n h)
          obtain ⟨ihl, ihr⟩ := ih (q ++ [n]) ((n, some cur) :: came)
            hC' hgoal' hcur' hqsub' hqsort' hwin' hproc' hns' hprog'
          constructor
          · intro q' came' heq
            rw [hexp] at heq
            obtain ⟨⟨a, ha1, ha2⟩, hC'', hgoal'', hqsub'', hqsort'', hwin'', hproc'', hnbr''⟩ :=
              ihl q' came' heq
            refine ⟨⟨n :: a, ?_, ?_⟩, hC'', hgoal'', hqsub'', hqsort'', hwin'', hproc'', hnbr''⟩
            · rw [ha1, List.append_assoc]
              rfl
            · rw [ha2]
              simp only [List.length_cons]
              omega
          · intro path heq
            rw [hexp] at heq
            exact ihr path heq

/-- The `while q:` loop: with enough fuel it completes, and it answers
`none` exactly when the goal is unreachable, otherwise a shortest path. -/
theorem bfsAux_spec (s goal : Tile) :
    ∀ fuel q came, Inv s goal q came →
    q.length + 2 * (869 - came.length) < fuel →
    ∃ res, bfsAux goal fuel q came = some res ∧
      (res = none → ¬ reach s goal) ∧
      (∀ p, res = some p → pathGood s goal p) := by
  intro fuel
  induction fuel with
  | zero =>
      intro q came _ hfuel
      exact absurd hfuel (by omega)
  | succ f ihf =>
      intro q came hInv hfuel
      cases q with
      | nil =>
          refine ⟨none, rfl, ?_, by simp⟩
          rintro - ⟨m, hm⟩
          exact hInv.goalI
            (reachClosed (fun k hk => hInv.procK k hk (List.not_mem_nil k))
              hInv.cameI.sMem m goal hm)
      | cons cur rest =>
          have hcurmem : cur ∈ akeys came :=
            hInv.qSub cur (List.mem_cons_self cur rest)
          obtain ⟨dc, hdc⟩ := hInv.cameI.reachK cur hcurmem
          have hwin : ∀ u ∈ rest, ∃ du, distIs s u du ∧ dc ≤ du ∧ du ≤ dc + 1 := by
            intro u hu
            obtain ⟨du, hdu⟩ :=
              hInv.cameI.reachK u (hInv.qSub u (List.mem_cons_of_mem cur hu))
            have h1 : dc ≤ du :=
              (List.pairwise_cons.mp hInv.qSorted).1 u hu dc du hdc hdu
            have h2 : du ≤ dc + 1 :=
              hInv.qSpread cur (List.mem_cons_self cur rest) u
                (List.mem_cons_of_mem cur hu) dc du hdc hdu
            exact ⟨du, hdu, h1, h2⟩
          have hsorted : rest.Pairwise (sortRel s) :=
            (List.pairwise_cons.mp hInv.qSorted).2
          have hprocm : ∀ k ∈ akeys came, k ∉ rest →
              k = cur ∨ ∀ n ∈ neighbors k, n ∈ akeys came := by
            intro k hk hkr
            by_cases hkc : k = cur
            · exact Or.inl hkc
            · refine Or.inr (hInv.procK k hk ?_)
              intro hmem
              rcases List.mem_cons.mp hmem with h | h
              · exact hkc h
              · exact hkr h
          obtain ⟨specl, specr⟩ := scanNbrs_spec s goal cur dc hdc
            (neighbors cur) rest came hInv.cameI hInv.goalI hcurmem
            (fun u hu => hInv.qSub u (List.mem_cons_of_mem cur hu))
            hsorted hwin hprocm (fun n hn => hn) (fun n hn => Or.inl hn)
          cases hscan : scanNbrs goal cur (neighbors cur) rest came with
          | inr path =>
              refine ⟨some path, by simp [bfsAux, hscan], by simp, ?_⟩
              intro p hp
              injection hp with hp
              exact hp ▸ specr path hscan
          | inl pair =>
              obtain ⟨q', came'⟩ := pair
              obtain ⟨⟨a, ha1, ha2⟩, hC', hgoal', hqsub', hqsort', hwin', hproc', hnbr'⟩ :=
                specl q' came' hscan
              have hInv' : Inv s goal q' came' := by
                refine ⟨hC', hgoal', hqsub', hqsort', ?_, ?_⟩
                · intro u hu v hv du dv hdu hdv
                  obtain ⟨du', h1, h2, h3⟩ := hwin' u hu
                  obtain ⟨dv', g1, g2, g3⟩ := hwin' v hv
                  have e1 := distIs_unique hdu h1
                  have e2 := distIs_unique hdv g1
                  omega
                · intro k hk hkq
                  rcases hproc' k hk hkq with h | h
                  · exact h ▸ hnbr'
                  · exact h
              have hb : came.length ≤ 869 :=
                keysBound hInv.cameI.nodupK hInv.cameI.openK
              have hb' : came'.length ≤ 869 := keysBound hC'.nodupK hC'.openK
              have hq'len : q'.length = rest.length + a.length := by
                rw [ha1]; simp
              have hfuel' : q'.length + 2 * (869 - came'.length) < f := by
                simp only [List.length_cons] at hfuel
                omega
              obtain ⟨res, hres, hr1, hr2⟩ := ihf q' came' hInv' hfuel'
              exact ⟨res, by simp [bfsAux, hscan, hres], hr1, hr2⟩

/-- Prepending an edge to a walk. -/
theorem reachN_cons {x y v : Tile} (hxy : adjacent x y) :
    ∀ n, reachN y n v → reachN x (n + 1) v := by
  intro n
  induction n generalizing v with
  | zero =>
      intro hv
      exact ⟨x, rfl, show adjacent x v from hv ▸ hxy⟩
  | succ n ihn =>
      rintro ⟨w, hw, ha⟩
      exact ⟨w, ihn hw, ha⟩

/-- Any adjacency-chained list from `u` to `v` is a walk of `length - 1`
steps. -/
theorem walk_reachN :
    ∀ (p : List Tile) (u v : Tile), p.Chain' adjacent → p.head? = some u →
      p.getLast? = some v → reachN u (p.length - 1) v := by
  intro p
  induction p with
  | nil => intro u v _ h; simp at h
  | cons x t iht =>
      intro u v hch hh hl
      have hxu : x = u := by simpa using hh
      subst hxu
      cases t with
      | nil =>
          have hxv : x = v := by simpa using hl
          subst hxv
          exact reachN_self _
      | cons y t2 =>
          rw [List.chain'_cons] at hch
          have h2 := iht y v hch.2 rfl (by simpa using hl)
          have h3 := reachN_cons hch.1 ((y :: t2).length - 1) h2
          simpa using h3

/-- Full functional specification of `bfs`. -/
theorem bfs_spec (s goal : Tile) :
    (¬ reach s goal → bfs s goal = none) ∧
    (reach s goal → ∃ p, bfs s goal = some p ∧ pathGood s goal p) := by
  by_cases hsg : s = goal
  · subst hsg
    constructor
    · intro h
      exact absurd (reach_self s) h
    · intro _
      refine ⟨[s], by simp [bfs], 0, distIs_self s, rfl, rfl, rfl,
        List.chain'_singleton s, ?_⟩
      intro t ht
      rw [List.mem_singleton] at ht
      exact Or.inl ht
  · have hInv0 : Inv s goal [s] [(s, none)] := by
      refine ⟨⟨?_, ?_, ?_, ?_, ?_, ?_⟩, ?_, ?_, ?_, ?_, ?_⟩
      · exact List.nodup_singleton s
      · exact alookup_cons_self
      · intro k hk
        by_cases h : k = s
        · exact h
        · rw [alookup_cons_ne h] at hk
          exact absurd hk (by simp [alookup])
      · intro k hk
        have : k = s := by simpa [akeys] using hk
        exact ⟨0, this ▸ distIs_self s⟩
      · intro k p hk
        by_cases h : k = s
        · subst h
          rw [alookup_cons_self] at hk
          exact absurd hk (by simp)
        · rw [alookup_cons_ne h] at hk
          exact absurd hk (by simp [alookup])
      · intro k hk
        have : k = s := by simpa [akeys] using hk
        exact Or.inl this
      · intro h
        have : goal = s := by simpa [akeys] using h
        exact hsg this.symm
      · intro u hu
        have : u = s := by simpa using hu
        simp [akeys, this]
      · exact List.pairwise_singleton _ s
      · intro u hu v hv du dv hdu hdv
        have hu' : u = s := by simpa using hu
        have hv' : v = s := by simpa using hv
        have e1 := distIs_unique hdu (by rw [hu']; exact distIs_self s)
        have e2 := distIs_unique hdv (by rw [hv']; exact distIs_self s)
        omega
      · intro k hk hknq
        have : k = s := by simpa [akeys] using hk
        exact absurd (by simp [this]) hknq
    have hfuel : [s].length + 2 * (869 - ([(s, none)] : Came).length) < bfsFuel := by
      simp [bfsFuel]
    obtain ⟨res, hres, hr1, hr2⟩ := bfsAux_spec s goal bfsFuel [s] [(s, none)] hInv0 hfuel
    constructor
    · intro hnr
      cases res with
      | none => simp [bfs, hsg, hres]
      | some p =>
          obtain ⟨d, hd, -⟩ := hr2 p rfl
          exact absurd (reach_of_reachN hd.1) hnr
    · intro hr
      cases res with
      | none => exact absurd (hr1 rfl) (by simpa using hr)
      | some p =>
          exact ⟨p, by simp [bfs, hsg, hres], hr2 p rfl⟩

/-- Termination-only scan invariant (also valid when `start = goal`). -/
theorem scanNbrs_total (s goal cur : Tile) :
    ∀ ns q came,
    (akeys came).Nodup →
    (∀ k ∈ akeys came, k = s ∨ openT k = true) →
    (∀ n ∈ ns, adjacent cur n) →
    ∀ q' came', scanNbrs goal cur ns q came = Sum.inl (q', came') →
      (∃ a, q' = q ++ a ∧ came'.length = came.length + a.length) ∧
      (akeys came').Nodup ∧ (∀ k ∈ akeys came', k = s ∨ openT k = true) := by
  intro ns
  induction ns with
  | nil =>
      intro q came hnd hop _ q' came' heq
      simp only [scanNbrs, Sum.inl.injEq, Prod.mk.injEq] at heq
      obtain ⟨rfl, rfl⟩ := heq
      exact ⟨⟨[], by simp, by simp⟩, hnd, hop⟩
  | cons n ns ih =>
      intro q came hnd hop hns q' came' heq
      by_cases hvis : (alookup came n).isSome
      · rw [show scanNbrs goal cur (n :: ns) q came = scanNbrs goal cur ns q came
          from by simp [scanNbrs, hvis]] at heq
        exact ih q came hnd hop (fun x hx => hns x (List.mem_cons_of_mem n hx))
          q' came' heq
      · have hfresh : n ∉ akeys came := fun hmem => hvis (alookup_isSome.mpr hmem)
        have hopenn : openT n = true :=
          adjacent_open (hns n (List.mem_cons_self n ns))
        by_cases hng : n = goal
        · subst hng
          rw [show scanNbrs n cur (n :: ns) q came = Sum.inr _ from by
            show (if (alookup came n).isSome then _ else _) = _
            rw [if_neg (by simpa using hvis)]
            show (if n = n then _ else _) = _
            rw [if_pos rfl]] at heq
          exact absurd heq (by simp)
        · rw [show scanNbrs goal cur (n :: ns) q came =
              scanNbrs goal cur ns (q ++ [n]) ((n, some cur) :: came)
            from by simp [scanNbrs, hvis, hng]] at heq
          have hnd' : (akeys ((n, some cur) :: came)).Nodup := by
            rw [akeys_cons, List.nodup_cons]
            exact ⟨hfresh, hnd⟩
          have hop' : ∀ k ∈ akeys ((n, some cur) :: came),
              k = s ∨ openT k = true := by
            intro k hk
            rw [akeys_cons] at hk
            rcases List.mem_cons.mp hk with rfl | hk2
            · exact Or.inr hopenn
            · exact hop k hk2
          obtain ⟨⟨a, ha1, ha2⟩, h1, h2⟩ := ih (q ++ [n]) ((n, some cur) :: came)
            hnd' hop' (fun x hx => hns x (List.mem_cons_of_mem n hx)) q' came' heq
          refine ⟨⟨n :: a, ?_, ?_⟩, h1, h2⟩
          · rw [ha1, List.append_assoc]; rfl
          · rw [ha2]; simp only [List.length_cons]; omega

/-- Termination of the fueled BFS loop for arbitrary start/goal. -/
theorem bfsAux_total (s goal : Tile) :
    ∀ fuel q came,
    (akeys came).Nodup →
    (∀ k ∈ akeys came, k = s ∨ openT k = true) →
    q.length + 2 * (869 - came.length) < fuel →
    (bfsAux goal fuel q came).isSome = true := by
  intro fuel
  induction fuel with
  | zero =>
      intro q came _ _ hfuel
      exact absurd hfuel (by omega)
  | succ f ihf =>
      intro q came hnd hop hfuel
      cases q with
      | nil => rfl
      | cons cur rest =>
          cases hscan : scanNbrs goal cur (neighbors cur) rest came with
          | inr path => simp [bfsAux, hscan]
          | inl pair =>
              obtain ⟨q', came'⟩ := pair
              obtain ⟨⟨a, ha1, ha2⟩, hnd', hop'⟩ :=
                scanNbrs_total s goal cur (neighbors cur) rest came hnd hop
                  (fun n hn => hn) q' came' hscan
              have hb : came.length ≤ 869 := keysBound hnd hop
              have hb' : came'.length ≤ 869 := keysBound hnd' hop'
              have hq'len : q'.length = rest.length + a.length := by
                rw [ha1]; simp
              have hfuel' : q'.length + 2 * (869 - came'.length) < f := by
                simp only [List.length_cons] at hfuel
                omega
              have := ihf q' came' hnd' hop' hfuel'
              simpa [bfsAux, hscan] using this

end BFSInvariant

section ClaimsBFS

/-- **C1.** For every pair of open tiles `A` and `B` that are reachable from
each other over the maze's orthogonal-adjacency graph, the path finder `bfs`
returns an ordered sequence of tiles that starts at `A`, ends at `B`, steps
only between orthogonally adjacent open tiles, and whose length equals the
true shortest grid-distance between `A` and `B` (every adjacency-walk from
`A` to `B` is at least as long); when no route exists it returns `none`. -/
theorem C1_bfs_shortest_path (A B : Tile) (hA : openT A = true)
    (_hB : openT B = true) :
    (reach A B →
      ∃ p d, bfs A B = some p ∧ p.head? = some A ∧ p.getLast? = some B ∧
        p.Chain' adjacent ∧ (∀ t ∈ p, openT t = true) ∧
        distIs A B d ∧ p.length = d + 1 ∧
        (∀ q : List Tile, q.head? = some A → q.getLast? = some B →
          q.Chain' adjacent → p.length ≤ q.length)) ∧
    (¬ reach A B → bfs A B = none) := by
  constructor
  · intro hr
    obtain ⟨p, hp, d, hd, hlen, hh, hl, hch, hop⟩ := (bfs_spec A B).2 hr
    refine ⟨p, d, hp, hh, hl, hch, ?_, hd, hlen, ?_⟩
    · intro t ht
      rcases hop t ht with h | h
      · exact h ▸ hA
      · exact h
    · intro q hqh hql hqc
      have hq1 : 1 ≤ q.length := by
        cases q
        · simp at hqh
        · simp
      have hwr := walk_reachN q A B hqc hqh hql
      have hle := hd.2 _ hwr
      omega
  · exact (bfs_spec A B).1

/-- Witness for C1: applied at the concrete open tiles `(1,1)` and `(1,2)`. -/
theorem C1_bfs_shortest_path_witness :
    ∃ p d, bfs (1, 1) (1, 2) = some p ∧ p.head? = some (1, 1) ∧
      p.getLast? = some (1, 2) ∧ p.Chain' adjacent ∧
      (∀ t ∈ p, openT t = true) ∧ distIs (1, 1) (1, 2) d ∧
      p.length = d + 1 ∧
      (∀ q : List Tile, q.head? = some (1, 1) → q.getLast? = some (1, 2) →
        q.Chain' adjacent → p.length ≤ q.length) :=
  (C1_bfs_shortest_path (1, 1) (1, 2) (by decide) (by decide)).1
    ⟨1, (1, 1), rfl, by decide⟩

/-- **C10.** For every pair of tiles (wall and out-of-bounds tiles included)
the path finder terminates: the visited dictionary enqueues each tile at most
once, so the fueled search loop completes within `2*(ROWS*COLS+1)` iterations
without exhausting its fuel, and `bfs` always returns a path or `none`. -/
theorem C10_bfs_terminates (start goal : Tile) :
    (bfsAux goal bfsFuel [start] [(start, none)]).isSome = true ∧
    (bfs start goal = none ∨ ∃ p, bfs start goal = some p) := by
  constructor
  · apply bfsAux_total start goal bfsFuel [start] [(start, none)]
    · exact List.nodup_singleton _
    · intro k hk
      have : k = start := by simpa [akeys] using hk
      exact Or.inl this
    · simp [bfsFuel]
  · cases h : bfs start goal with
    | none => exact Or.inl rfl
    | some p => exact Or.inr ⟨p, rfl⟩

end ClaimsBFS

section Entities

/-- Ghost behaviour modes (the Python string tags). -/
inductive Mode : Type
  | scatter
  | chase
  | frightened
  | eaten
deriving DecidableEq, Repr

/-- The `Player` entity (drawing-only fields omitted). -/
structure Player : Type where
  tile : Tile
  pos : ℚ × ℚ
  dir : ℤ × ℤ       -- `pygame.Vector2(dx, dy)`, always one of the unit vectors or 0
  next_dir : ℤ × ℤ
  radius : ℤ
  lives : ℤ
  score : ℤ
  alive : Bool
deriving DecidableEq, Repr

/-- `Player.__init__(start_tile)`. -/
def mkPlayer (start_tile : Tile) : Player :=
  { tile := start_tile, pos := tile_center start_tile, dir := (0, 0),
    next_dir := (0, 0), radius := 7, lives := 3, score := 0, alive := true }

/-- The `Ghost` entity (drawing-only fields omitted). -/
structure Ghost : Type where
  name : String
  tile : Tile
  pos : ℚ × ℚ
  radius : ℤ
  mode : Mode
  scatter_target : Tile
  target : Tile
  path : List Tile
  path_index : ℕ
  speed : ℚ
  fright_timer : ℚ
deriving DecidableEq, Repr

/-- `Ghost.__init__(name, start_tile, scatter_target)`. -/
def mkGhost (name : String) (start_tile scatter_target : Tile) : Ghost :=
  { name := name, tile := start_tile, pos := tile_center start_tile,
    radius := 7, mode := .scatter, scatter_target := scatter_target,
    target := scatter_target, path := [], path_index := 0,
    speed := GHOST_SPEED, fright_timer := 0 }

/-- The four ghosts created at startup (scatter corners from the source). -/
def ghosts_init : List Ghost :=
  [ mkGhost "blinky" (13, 13) (0, 26)
  , mkGhost "pinky" (13, 14) (0, 1)
  , mkGhost "inky" (13, 12) (30, 26)
  , mkGhost "clyde" (13, 15) (30, 1) ]

/-- `Ghost.set_fright`. -/
def Ghost.set_fright (g : Ghost) : Ghost :=
  if g.mode ≠ Mode.eaten then
    { g with mode := .frightened, fright_timer := POWER_DURATION }
  else g

/-- Python `round` (half to even) of an exact rational. -/
def pyround (q : ℚ) : ℤ :=
  let f : ℤ := q.num.fdiv q.den
  let r : ℤ := q.num - f * q.den
  if 2 * r < (q.den : ℤ) then f
  else if (q.den : ℤ) < 2 * r then f + 1
  else if f % 2 = 0 then f else f + 1

/-- `round(v / TILE)` (division written as multiplication by `1/16` so that
the embedding stays kernel-computable). -/
def round_div_16 (q : ℚ) : ℤ := pyround (q * mkRat 1 16)

/-- The rounded tile `(int(round(pos.y / TILE)), int(round(pos.x / TILE)))`
used as the BFS start in `Ghost.update`. -/
def Ghost.bfs_start (g : Ghost) : Tile :=
  (round_div_16 g.pos.2, round_div_16 g.pos.1)

/-- Mode-toggling done by the main loop before `Ghost.update` (wall-clock
based: fright expiry at `ghost_frightened_until` and the 7-second
scatter/chase cycle of `int(time.time() // 7) % 2`). -/
def Ghost.toggleTick (tWall fu : ℚ) (g : Ghost) : Ghost :=
  let g1 := if fu < tWall ∧ g.mode = Mode.frightened
    then { g with mode := .chase } else g
  let cycle : ℤ := ⌊tWall * mkRat 1 7⌋ % 2
  if g1.mode ≠ Mode.frightened ∧ g1.mode ≠ Mode.eaten then
    { g1 with mode := if cycle = 0 then .scatter else .chase }
  else g1

/-- Fright-timer handling at the top of `Ghost.update`. -/
def Ghost.modeTick (dt : ℚ) (g : Ghost) : Ghost :=
  if g.mode = Mode.frightened then
    let t := g.fright_timer - dt
    if t ≤ 0 then { g with fright_timer := t, mode := .chase }
    else { g with fright_timer := t }
  else g

/-- Target selection of `Ghost.update` (the frightened target is the
externally supplied random tile; the eaten target is the home `(13,13)`). -/
def Ghost.selectTarget (player_tile randTarget : Tile) (g : Ghost) : Ghost :=
  match g.mode with
  | .scatter => { g with target := g.scatter_target }
  | .chase => { g with target := player_tile }
  | .frightened => { g with target := randTarget }
  | .eaten => { g with target := (13, 13) }

/-- The `recalc` condition of `Ghost.update`. -/
def Ghost.recalcNeeded (g : Ghost) : Bool :=
  (g.path.isEmpty || decide (g.path.length ≤ g.path_index)) ||
    (!g.path.isEmpty && decide (g.path.getLast? ≠ some g.target))

/-- Path recomputation of `Ghost.update`: BFS from the rounded position; on
`None` the old path is kept unchanged. -/
def Ghost.recalc (g : Ghost) : Ghost :=
  if g.recalcNeeded then
    match bfs g.bfs_start g.target with
    | some p => { g with path := p, path_index := if 1 < p.length then 1 else 0 }
    | none => g
  else g

/-- The pre-movement stages of one ghost tick: main-loop toggling, fright
timer, target selection and path recomputation, in source order. -/
def ghostPre (tWall fu dt : ℚ) (player_tile randTarget : Tile)
    (g : Ghost) : Ghost :=
  (((g.toggleTick tWall fu).modeTick dt).selectTarget player_tile randTarget).recalc

/-- Movement along the path (`if self.path and self.path_index < len(...)`).
The float step `pos += to_target.normalize() * move_pixels` is embedded as
the exact point `pos + s • (target_pos - pos)`: `s = 1` is the
snap-and-advance branch (`dist <= move_pixels or dist == 0`), `0 ≤ s < 1`
the in-transit branch, ranging over the per-tick distance budgets `dt` can
produce. -/
def Ghost.moveRel (g g' : Ghost) : Prop :=
  if hlt : g.path_index < g.path.length then
    let nt := g.path.get ⟨g.path_index, hlt⟩
    let tp := tile_center nt
    g' = { g with pos := tp, tile := nt, path_index := g.path_index + 1 } ∨
    (g.pos ≠ tp ∧ ∃ s : ℚ, 0 ≤ s ∧ s < 1 ∧
      g' = { g with pos := (g.pos.1 + s * (tp.1 - g.pos.1),
                            g.pos.2 + s * (tp.2 - g.pos.2)) })
  else g' = g

/-- One full per-tick update of a ghost: the main-loop mode toggling
followed by `Ghost.update(dt, player_tile, ...)`.  The random frightened
target is constrained to the in-bounds tiles `random.randint` produces. -/
def GhostTick (tWall fu dt : ℚ) (player_tile randTarget : Tile)
    (g g' : Ghost) : Prop :=
  in_bounds randTarget = true ∧ 0 ≤ dt ∧
  Ghost.moveRel (ghostPre tWall fu dt player_tile randTarget g) g'

/-- The deterministic snap-move instance of a ghost tick (every movement
completes to the next tile centre; realised by a large enough `dt`). -/
def ghostTickSnap (tWall fu dt : ℚ) (player_tile randTarget : Tile)
    (g : Ghost) : Ghost :=
  let g1 := ghostPre tWall fu dt player_tile randTarget g
  if hlt : g1.path_index < g1.path.length then
    let nt := g1.path.get ⟨g1.path_index, hlt⟩
    { g1 with pos := tile_center nt, tile := nt, path_index := g1.path_index + 1 }
  else g1

theorem ghostTickSnap_is_tick (tWall fu dt : ℚ) (pt rt : Tile)
    (hrt : in_bounds rt = true) (hdt : 0 ≤ dt) (g : Ghost) :
    GhostTick tWall fu dt pt rt g (ghostTickSnap tWall fu dt pt rt g) := by
  refine ⟨hrt, hdt, ?_⟩
  by_cases hlt : (ghostPre tWall fu dt pt rt g).path_index <
      (ghostPre tWall fu dt pt rt g).path.length
  · have hX : ghostTickSnap tWall fu dt pt rt g =
        { ghostPre tWall fu dt pt rt g with
          pos := tile_center ((ghostPre tWall fu dt pt rt g).path.get
            ⟨(ghostPre tWall fu dt pt rt g).path_index, hlt⟩),
          tile := (ghostPre tWall fu dt pt rt g).path.get
            ⟨(ghostPre tWall fu dt pt rt g).path_index, hlt⟩,
          path_index := (ghostPre tWall fu dt pt rt g).path_index + 1 } :=
      dif_pos hlt
    rw [hX]
    unfold Ghost.moveRel
    rw [dif_pos hlt]
    exact Or.inl rfl
  · have hX : ghostTickSnap tWall fu dt pt rt g = ghostPre tWall fu dt pt rt g :=
      dif_neg hlt
    rw [hX]
    unfold Ghost.moveRel
    rw [dif_neg hlt]

/-- The turn attempt at the top of `Player.update`: the buffered direction
replaces the active one as soon as the adjacent tile (relative to the
*logical* tile, regardless of sub-tile position) in that direction is free. -/
def playerTurn (p : Player) : Player :=
  if p.next_dir ≠ (0, 0) then
    let nd : Tile := (p.next_dir.2, p.next_dir.1)   -- (int(next_dir.y), int(next_dir.x))
    let t : Tile := (p.tile.1 + nd.1, p.tile.2 + nd.2)
    if in_bounds t && !is_wall (mapChar t) then { p with dir := p.next_dir } else p
  else p

/-- The movement-target computation of `Player.update`: `none` when the
player has no direction or the tile ahead is blocked (the update returns
without moving). -/
def Player.moveTarget (p : Player) : Option Tile :=
  if p.dir = (0, 0) then none
  else
    let dt : Tile := (p.dir.2, p.dir.1)
    let t : Tile := (p.tile.1 + dt.1, p.tile.2 + dt.2)
    if !in_bounds t || is_wall (mapChar t) then none else some t

/-- One `Player.update(dt)` call: turn attempt, then movement towards the
target tile centre — snap (`dist <= move_pixels`) or the in-transit point
`pos + s • (target - pos)`, `0 ≤ s < 1`, as for ghosts. -/
def PlayerStep (p p' : Player) : Prop :=
  match (playerTurn p).moveTarget with
  | none => p' = playerTurn p
  | some t =>
      p' = { playerTurn p with pos := tile_center t, tile := t } ∨
      ((playerTurn p).pos ≠ tile_center t ∧ ∃ s : ℚ, 0 ≤ s ∧ s < 1 ∧
        p' = { playerTurn p with
               pos := ((playerTurn p).pos.1 +
                         s * ((tile_center t).1 - (playerTurn p).pos.1),
                       (playerTurn p).pos.2 +
                         s * ((tile_center t).2 - (playerTurn p).pos.2)) })

/-- Key events drained before a tick: the last arrow key pressed replaces
`next_dir` (or no key was pressed). -/
def PlayerInput (p p' : Player) : Prop :=
  p' = p ∨ ∃ d ∈ [((-1 : ℤ), (0 : ℤ)), (1, 0), (0, -1), (0, 1)],
    p' = { p with next_dir := d }

/-- A full player tick: input draining then `Player.update`. -/
def PlayerTick (p p' : Player) : Prop :=
  ∃ q, PlayerInput p q ∧ PlayerStep q p'

/-- Squared Euclidean distance between two pixel positions. -/
def dist2 (a b : ℚ × ℚ) : ℚ :=
  (a.1 - b.1) * (a.1 - b.1) + (a.2 - b.2) * (a.2 - b.2)

/-- The collision test `(g.pos - player.pos).length() < g.radius +
player.radius - 3`, squared (the threshold `11` is positive). -/
def collideB (p : Player) (g : Ghost) : Bool :=
  dist2 g.pos p.pos <
    ((g.radius + p.radius - 3 : ℤ) : ℚ) * ((g.radius + p.radius - 3 : ℤ) : ℚ)

/-- Session phases (`game_state`). -/
inductive GState : Type
  | ready
  | playing
  | gameover
deriving DecidableEq, Repr

/-- The per-ghost reset executed on a player hit (`for gh in ghosts:`):
position snapped to the ghost's *current* tile, path cleared, mode forced
to scatter — note: tiles are not restored to round-start, and eaten ghosts
are also forced to scatter. -/
def softReset (gh : Ghost) : Ghost :=
  { gh with pos := tile_center gh.tile, path := [], mode := .scatter }

/-- The collision-resolution loop (`for g in ghosts:` with its `break`):
processes ghosts in order, eating frightened ones, and on the first
colliding scatter/chase ghost decrements lives and either ends the game or
resets the round. -/
def resolveGhosts (pstart : Tile) (p : Player) (st : GState) (timer : ℚ) :
    List Ghost → List Ghost → Player × List Ghost × GState × ℚ
  | done, [] => (p, done, st, timer)
  | done, g :: rest =>
      if collideB p g then
        if g.mode = Mode.frightened then
          resolveGhosts pstart { p with score := p.score + 200 } st timer
            (done ++ [{ g with mode := .eaten, path := [], path_index := 0 }]) rest
        else if g.mode ≠ Mode.eaten then
          let p' := { p with lives := p.lives - 1 }
          if p'.lives ≤ 0 then
            (p', done ++ g :: rest, GState.gameover, timer)
          else
            ({ p' with pos := tile_center pstart, tile := pstart, dir := (0, 0) },
              (done ++ g :: rest).map softReset, GState.ready, mkRat 3 2)
        else resolveGhosts pstart p st timer (done ++ [g]) rest
      else resolveGhosts pstart p st timer (done ++ [g]) rest

/-- The pellet / power-pellet pickup block of the `"playing"` branch:
returns the new player, both item sets, the ghosts and
`ghost_frightened_until`. -/
def pickupTick (now : ℚ) (p : Player) (pellets power : List Tile)
    (ghosts : List Ghost) (fu : ℚ) :
    Player × List Tile × List Tile × List Ghost × ℚ :=
  let ptile := p.tile
  let p1 := if ptile ∈ pellets then { p with score := p.score + 10 } else p
  let pellets1 := if ptile ∈ pellets then pellets.erase ptile else pellets
  if ptile ∈ power then
    ({ p1 with score := p1.score + 50 }, pellets1, power.erase ptile,
      ghosts.map Ghost.set_fright, now + POWER_DURATION)
  else (p1, pellets1, power, ghosts, fu)

/-- All grid tiles, enumerated row-major (used to collect the pellet sets
from the map text, as the startup loop does). -/
def gridTiles : List Tile :=
  (List.range 31).flatMap (fun r => (List.range 28).map (fun c => ((r : ℤ), (c : ℤ))))

/-- The initial pellet set (map character `'.'`). -/
def pellets_init : List Tile := gridTiles.filter (fun t => mapChar t = '.')

/-- The initial power-pellet set (map character `'o'`). -/
def power_init : List Tile := gridTiles.filter (fun t => mapChar t = 'o')

/-- `ghost_starts.get(key, default)` with the default start dictionary. -/
def ghost_starts_get (key : String) (dflt : Tile) : Tile :=
  if key = "1" then (13, 13)
  else if key = "2" then (13, 14)
  else if key = "3" then (13, 12)
  else if key = "4" then (13, 15)
  else dflt

/-- One ghost's reset in the restart handler:
`g.tile = ghost_starts.get(str(["1","2","3","4"].index(name)+1), g.tile)`.
`list.index` raises `ValueError` when the name is absent, modelled as
`Except.error`. -/
def restartGhost (gname : String) (g : Ghost) : Except String Ghost :=
  match ["1", "2", "3", "4"].indexOf? gname with
  | none => Except.error "ValueError"
  | some i =>
      let t := ghost_starts_get (toString (i + 1)) g.tile
      Except.ok { g with tile := t, pos := tile_center t, mode := .scatter }

/-- The whole `K_r` restart handler of the `"gameover"` state: fresh player,
refilled item sets, ghosts reset via the zip with the name list, phase back
to ready with a 2-second timer. -/
def restartGame (ghosts : List Ghost) :
    Except String (Player × List Tile × List Tile × List Ghost × GState × ℚ) := do
  let gs ← (ghosts.zip ["blinky", "pinky", "inky", "clyde"]).mapM
    (fun gn => restartGhost gn.2 gn.1)
  pure (mkPlayer player_start, pellets_init, power_init, gs, GState.ready, 2)

/-- The mode trace of one ghost over a tick sequence: wall-clock time
accumulates the per-tick elapsed seconds `dts` on top of the start instant
`t0`; `fu` is `ghost_frightened_until`.  Only the mode-relevant stages
(`toggleTick`, `modeTick`) act — target selection and movement do not
change modes. -/
def runModes (t0 fu : ℚ) (dts : List ℚ) (g : Ghost) : List Mode :=
  match dts with
  | [] => []
  | dt :: rest =>
      let t := t0 + dt
      let g' := (g.toggleTick t fu).modeTick dt
      g'.mode :: runModes t fu rest g'

end Entities

section StageLemmas

theorem recalc_mode (g : Ghost) :
    (Ghost.recalc g).mode = g.mode ∧ (Ghost.recalc g).target = g.target ∧
    (Ghost.recalc g).pos = g.pos ∧ (Ghost.recalc g).tile = g.tile := by
  unfold Ghost.recalc
  by_cases hn : g.recalcNeeded
  · rw [if_pos hn]
    cases hb : bfs g.bfs_start g.target with
    | none => exact ⟨rfl, rfl, rfl, rfl⟩
    | some p => exact ⟨rfl, rfl, rfl, rfl⟩
  · rw [if_neg hn]
    exact ⟨rfl, rfl, rfl, rfl⟩

theorem moveRel_mode {a b : Ghost} (h : Ghost.moveRel a b) :
    b.mode = a.mode ∧ b.target = a.target ∧ b.path = a.path := by
  unfold Ghost.moveRel at h
  by_cases hlt : a.path_index < a.path.length
  · rw [dif_pos hlt] at h
    rcases h with h | ⟨-, s, -, -, h⟩ <;> rw [h] <;> exact ⟨rfl, rfl, rfl⟩
  · rw [dif_neg hlt] at h
    rw [h]
    exact ⟨rfl, rfl, rfl⟩

/-- `W` being a wall, nothing reaches it (neighbour edges only enter open
tiles), so `bfs` answers `none` for it from any other start. -/
theorem not_reach_of_closed {A W : Tile} (hAW : W ≠ A) (hW : openT W = false) :
    ¬ reach A W := by
  rintro ⟨n, hn⟩
  cases n with
  | zero => exact hAW hn
  | succ n =>
      obtain ⟨w, -, ha⟩ := hn
      rw [adjacent_open ha] at hW
      exact absurd hW (by decide)

end StageLemmas

section ClaimsSession

/-- **C7 (counterexample).**  The claim that pursuer mode sequences depend
only on the accumulated elapsed seconds (not on the wall clock) is false:
two runs from the identical round-start ghost state with the identical
one-tick elapsed-time sequence `[1]`, differing only in the wall-clock start
instant (`0` versus `7` seconds), produce different mode sequences, because
the scatter/chase alternation reads `int(time.time() // 7) % 2`. -/
theorem C7_counterexample :
    runModes 0 0 [1] (mkGhost "blinky" (13, 13) (0, 26)) ≠
      runModes 7 0 [1] (mkGhost "blinky" (13, 13) (0, 26)) := by
  decide

theorem toggleTick_shift (t fu : ℚ) (g : Ghost) :
    Ghost.toggleTick (t + 14) (fu + 14) g = Ghost.toggleTick t fu g := by
  unfold Ghost.toggleTick
  have h1 : (fu + 14 < t + 14 ∧ g.mode = Mode.frightened) ↔
      (fu < t ∧ g.mode = Mode.frightened) := by
    constructor <;> rintro ⟨h, h2⟩ <;> exact ⟨by linarith, h2⟩
  have h2 : (⌊(t + 14) * mkRat 1 7⌋ % 2 : ℤ) = ⌊t * mkRat 1 7⌋ % 2 := by
    have he : (t + 14) * mkRat 1 7 = t * mkRat 1 7 + (2 : ℤ) := by
      rw [Rat.mkRat_eq_div]
      push_cast
      ring
    rw [he, Int.floor_add_int]
    omega
  rw [h2]
  by_cases h : fu < t ∧ g.mode = Mode.frightened
  · rw [if_pos h, if_pos (h1.mpr h)]
  · rw [if_neg h, if_neg (fun hc => h (h1.mp hc))]

/-- **C7 (amended).**  Pursuer mode sequences are a function of the absolute
wall-clock instants of the ticks (through the 7-second scatter/chase cycle
`int(time.time() // 7) % 2` and the wall-clock fright deadline), not of the
accumulated elapsed seconds alone: two runs agree whenever their wall-clock
start and fright deadline are both shifted by a whole 14-second cycle, while
the counterexample shows a 7-second shift changes the sequence. -/
theorem C7_mode_wallclock_period (t0 fu : ℚ) (dts : List ℚ) (g : Ghost) :
    runModes (t0 + 14) (fu + 14) dts g = runModes t0 fu dts g := by
  induction dts generalizing t0 g with
  | nil => rfl
  | cons dt rest ih =>
      simp only [runModes]
      rw [show t0 + 14 + dt = (t0 + dt) + 14 from by ring,
        toggleTick_shift (t0 + dt) fu g,
        ih (t0 + dt) (((g.toggleTick (t0 + dt) fu)).modeTick dt)]

/-- **C9.**  In the terminal (game-over) phase, the restart handler crashes
instead of restarting: the ghost-reset loop evaluates
`["1","2","3","4"].index(name)` with `name` drawn from
`["blinky","pinky","inky","clyde"]`, and `list.index` raises `ValueError`
on the very first ghost, so the handler never reinitialises anything.  The
embedding returns the modelled `ValueError` for every non-empty ghost
list. -/
theorem C9_restart_raises (g : Ghost) (rest : List Ghost) :
    restartGame (g :: rest) = Except.error "ValueError" := rfl

/-- **C6.**  A pursuer in captured (eaten) mode targets the fixed home tile
`(13,13)` every tick, but the mode is *absorbing*: no tick ever reverts it
to scripted-zone — in particular a captured pursuer that has arrived at the
home tile stays captured forever, contradicting the claimed revert. -/
theorem C6_eaten_absorbing (tWall fu dt : ℚ) (pt rt : Tile) (g g' : Ghost)
    (hmode : g.mode = Mode.eaten) (h : GhostTick tWall fu dt pt rt g g') :
    g'.mode = Mode.eaten ∧ g'.target = (13, 13) := by
  obtain ⟨-, -, hmove⟩ := h
  have ht : (g.toggleTick tWall fu) = g := by
    simp [Ghost.toggleTick, hmode]
  have hm : ((g.toggleTick tWall fu).modeTick dt) = g := by
    rw [ht]
    simp [Ghost.modeTick, hmode]
  have hs : (((g.toggleTick tWall fu).modeTick dt).selectTarget pt rt) =
      { g with target := (13, 13) } := by
    rw [hm]
    unfold Ghost.selectTarget
    rw [hmode]
  have hr := recalc_mode (((g.toggleTick tWall fu).modeTick dt).selectTarget pt rt)
  obtain ⟨hm', ht', -⟩ := moveRel_mode hmove
  unfold ghostPre at hm' ht'
  rw [hm', ht', hr.1, hr.2.1, hs]
  exact ⟨hmode, rfl⟩

/-- Witness for C6: a captured pursuer sitting exactly at the home tile
`(13,13)` stays captured (and keeps targeting home) after a full tick. -/
theorem C6_eaten_absorbing_witness :
    ({ mkGhost "blinky" (13, 13) (0, 26) with mode := Mode.eaten } : Ghost).mode
        = Mode.eaten ∧
    ((ghostTickSnap 7 0 (mkRat 1 10) (1, 1) (0, 0)
        { mkGhost "blinky" (13, 13) (0, 26) with mode := Mode.eaten }).mode
          = Mode.eaten ∧
      (ghostTickSnap 7 0 (mkRat 1 10) (1, 1) (0, 0)
        { mkGhost "blinky" (13, 13) (0, 26) with mode := Mode.eaten }).target
          = (13, 13)) :=
  ⟨rfl, C6_eaten_absorbing 7 0 (mkRat 1 10) (1, 1) (0, 0) _ _ rfl
    (ghostTickSnap_is_tick 7 0 (mkRat 1 10) (1, 1) (0, 0) (by decide)
      (by norm_num) _)⟩

/-- **C3.**  Picking up a power item in the active phase scores the fixed
larger value (+50), switches every non-captured pursuer to evasive
simultaneously (captured pursuers stay captured and are untouched), and
(re)starts both the per-ghost fright timer and the shared
`ghost_frightened_until` deadline at their full value — a second pickup
while already evasive refreshes rather than stacks. -/
theorem C3_power_pickup (now fu : ℚ) (p : Player) (pellets power : List Tile)
    (ghosts : List Ghost) (hpow : p.tile ∈ power) (hnp : p.tile ∉ pellets) :
    (pickupTick now p pellets power ghosts fu).1.score = p.score + 50 ∧
    (pickupTick now p pellets power ghosts fu).2.2.2.1 =
      ghosts.map Ghost.set_fright ∧
    (∀ g : Ghost, (g.mode = Mode.eaten → g.set_fright = g) ∧
      (g.mode ≠ Mode.eaten → (g.set_fright).mode = Mode.frightened ∧
        (g.set_fright).fright_timer = POWER_DURATION)) ∧
    (pickupTick now p pellets power ghosts fu).2.2.2.2 = now + POWER_DURATION := by
  unfold pickupTick
  rw [if_pos hpow]
  refine ⟨?_, rfl, ?_, rfl⟩
  · simp only [if_neg hnp]
  · intro g
    constructor
    · intro hg
      unfold Ghost.set_fright
      rw [if_neg (by simp [hg])]
    · intro hg
      unfold Ghost.set_fright
      rw [if_pos hg]
      exact ⟨rfl, rfl⟩

/-- Witness for C3: a concrete pickup on the power tile `(3,1)` with one
chasing, one evasive and one captured pursuer. -/
theorem C3_power_pickup_witness :
    ((3 : ℤ), (1 : ℤ)) ∈ [((3 : ℤ), (1 : ℤ))] ∧
    (pickupTick 0 { mkPlayer player_start with tile := (3, 1) } []
        [((3 : ℤ), (1 : ℤ))] ghosts_init 5).1.score =
      (mkPlayer player_start).score + 50 ∧
    (pickupTick 0 { mkPlayer player_start with tile := (3, 1) } []
        [((3 : ℤ), (1 : ℤ))] ghosts_init 5).2.2.2.1 =
      ghosts_init.map Ghost.set_fright ∧
    (pickupTick 0 { mkPlayer player_start with tile := (3, 1) } []
        [((3 : ℤ), (1 : ℤ))] ghosts_init 5).2.2.2.2 = 0 + POWER_DURATION := by
  have h := C3_power_pickup 0 5 { mkPlayer player_start with tile := (3, 1) }
    [] [((3 : ℤ), (1 : ℤ))] ghosts_init (by decide) (by decide)
  exact ⟨by decide, h.1, h.2.1, h.2.2.2⟩

/-- Ghost-tick stages other than movement/recalc never touch the
path, position or tile. -/
theorem preTick_preserves (tWall fu dt : ℚ) (pt rt : Tile) (g : Ghost) :
    ((((g.toggleTick tWall fu).modeTick dt).selectTarget pt rt).path = g.path ∧
     (((g.toggleTick tWall fu).modeTick dt).selectTarget pt rt).path_index = g.path_index) ∧
    (((g.toggleTick tWall fu).modeTick dt).selectTarget pt rt).pos = g.pos ∧
    (((g.toggleTick tWall fu).modeTick dt).selectTarget pt rt).tile = g.tile := by
  have h1 : ((g.toggleTick tWall fu).path = g.path ∧
      (g.toggleTick tWall fu).path_index = g.path_index) ∧
      (g.toggleTick tWall fu).pos = g.pos ∧
      (g.toggleTick tWall fu).tile = g.tile := by
    simp only [Ghost.toggleTick]
    split_ifs <;> exact ⟨⟨rfl, rfl⟩, rfl, rfl⟩
  have h2 : ∀ h : Ghost, ((h.modeTick dt).path = h.path ∧
      (h.modeTick dt).path_index = h.path_index) ∧
      (h.modeTick dt).pos = h.pos ∧ (h.modeTick dt).tile = h.tile := by
    intro h
    simp only [Ghost.modeTick]
    split_ifs <;> exact ⟨⟨rfl, rfl⟩, rfl, rfl⟩
  have h3 : ∀ h : Ghost, ((h.selectTarget pt rt).path = h.path ∧
      (h.selectTarget pt rt).path_index = h.path_index) ∧
      (h.selectTarget pt rt).pos = h.pos ∧ (h.selectTarget pt rt).tile = h.tile := by
    intro h
    obtain ⟨n, t, po, r, m, st, tg, pa, pi, sp, ft⟩ := h
    cases m <;> exact ⟨⟨rfl, rfl⟩, rfl, rfl⟩
  obtain ⟨⟨a1, a2⟩, a3, a4⟩ := h1
  obtain ⟨⟨b1, b2⟩, b3, b4⟩ := h2 (g.toggleTick tWall fu)
  obtain ⟨⟨c1, c2⟩, c3, c4⟩ := h3 ((g.toggleTick tWall fu).modeTick dt)
  exact ⟨⟨by rw [c1, b1, a1], by rw [c2, b2, a2]⟩, by rw [c3, b3, a3],
    by rw [c4, b4, a4]⟩

/-- A needed recomputation whose BFS answers `none` leaves the ghost
unchanged (the old path is kept). -/
theorem recalc_none {g : Ghost} (hneed : g.recalcNeeded = true)
    (hbfs : bfs g.bfs_start g.target = none) : g.recalc = g := by
  unfold Ghost.recalc
  rw [if_pos hneed, hbfs]

/-- **C8 (amended).**  When the path finder reports unreachable during a
pursuer's tick, no error is raised (the embedding is total, as is the
Python, which has no raise path here), the pursuer's *previous* path is
kept unchanged, and the pursuer holds its position and tile for the tick
exactly when that previous path is empty or exhausted; when a stale,
unexhausted path remains, the pursuer keeps moving along it instead of
holding position. -/
theorem C8_unreachable_keeps_stale_path (tWall fu dt : ℚ) (pt rt : Tile)
    (g g' : Ghost) (h : GhostTick tWall fu dt pt rt g g')
    (hneed : (((g.toggleTick tWall fu).modeTick dt).selectTarget pt rt).recalcNeeded
      = true)
    (hbfs : bfs (((g.toggleTick tWall fu).modeTick dt).selectTarget pt rt).bfs_start
      (((g.toggleTick tWall fu).modeTick dt).selectTarget pt rt).target = none) :
    g'.path = g.path ∧
    (g.path.length ≤ g.path_index → g'.pos = g.pos ∧ g'.tile = g.tile) := by
  obtain ⟨-, -, hmove⟩ := h
  obtain ⟨⟨hpa, hpi⟩, hpo, hti⟩ := preTick_preserves tWall fu dt pt rt g
  have hpre : ghostPre tWall fu dt pt rt g =
      (((g.toggleTick tWall fu).modeTick dt).selectTarget pt rt) := by
    unfold ghostPre
    exact recalc_none hneed hbfs
  rw [hpre] at hmove
  set g1 := (((g.toggleTick tWall fu).modeTick dt).selectTarget pt rt) with hg1
  obtain ⟨-, -, hpath⟩ := moveRel_mode hmove
  refine ⟨by rw [hpath, hpa], ?_⟩
  intro hexh
  have hnlt : ¬ g1.path_index < g1.path.length := by
    rw [hpa, hpi]
    omega
  unfold Ghost.moveRel at hmove
  rw [dif_neg hnlt] at hmove
  rw [hmove]
  exact ⟨hpo, hti⟩

/-- A frightened ghost mid-way along a stale chase path, with a wall tile
as its randomly rolled evasive target (so the BFS must answer `none`). -/
def c8ghost : Ghost :=
  { name := "blinky", tile := (1, 1), pos := (24, 24), radius := 7,
    mode := .frightened, scatter_target := (0, 26), target := (5, 1),
    path := [(1, 1), (2, 1)], path_index := 1, speed := GHOST_SPEED,
    fright_timer := 5 }

/-- The ghost state after the pre-movement stages of that tick (target
re-rolled to the wall `(0,0)`, fright timer decremented). -/
def c8mid : Ghost :=
  { c8ghost with
    target := (0, 0)
    fright_timer := 5 - mkRat 1 10 }

/-- The same ghost after the tick: it moved half-way toward `(2,1)` along
the stale path although the BFS just failed. -/
def c8ghost' : Ghost :=
  { c8ghost with
    target := (0, 0)
    fright_timer := 5 - mkRat 1 10
    pos := (24, 32) }

theorem c8_stage :
    (((c8ghost.toggleTick 3 10).modeTick (mkRat 1 10)).selectTarget (9, 9) (0, 0)) =
      c8mid := by
  decide

theorem c8_bfs_none :
    bfs (((c8ghost.toggleTick 3 10).modeTick (mkRat 1 10)).selectTarget
        (9, 9) (0, 0)).bfs_start
      (((c8ghost.toggleTick 3 10).modeTick (mkRat 1 10)).selectTarget
        (9, 9) (0, 0)).target = none := by
  rw [c8_stage]
  have hs : c8mid.bfs_start = (2, 2) := by decide
  have ht : c8mid.target = (0, 0) := by decide
  rw [hs, ht]
  exact (bfs_spec (2, 2) (0, 0)).1
    (not_reach_of_closed (by decide) (by decide))

theorem c8_tick :
    GhostTick 3 10 (mkRat 1 10) (9, 9) (0, 0) c8ghost c8ghost' := by
  refine ⟨by decide, by norm_num, ?_⟩
  have hb := c8_bfs_none
  rw [c8_stage] at hb
  have hpre : ghostPre 3 10 (mkRat 1 10) (9, 9) (0, 0) c8ghost = c8mid := by
    unfold ghostPre
    rw [c8_stage]
    exact recalc_none (by decide) hb
  rw [hpre]
  unfold Ghost.moveRel
  rw [dif_pos (by decide : c8mid.path_index < c8mid.path.length)]
  refine Or.inr ⟨by decide, mkRat 1 2, by norm_num, ?_⟩
  decide

/-- **C8 (counterexample).**  The claim "the pursuer holds its current
position for that tick" is false: this reachable-shaped tick has the BFS
report unreachable (the frightened target is the wall `(0,0)`), yet the
pursuer's position changes (it keeps walking its stale path). -/
theorem C8_counterexample :
    GhostTick 3 10 (mkRat 1 10) (9, 9) (0, 0) c8ghost c8ghost' ∧
    (((c8ghost.toggleTick 3 10).modeTick (mkRat 1 10)).selectTarget
      (9, 9) (0, 0)).recalcNeeded = true ∧
    bfs (((c8ghost.toggleTick 3 10).modeTick (mkRat 1 10)).selectTarget
        (9, 9) (0, 0)).bfs_start
      (((c8ghost.toggleTick 3 10).modeTick (mkRat 1 10)).selectTarget
        (9, 9) (0, 0)).target = none ∧
    c8ghost'.pos ≠ c8ghost.pos :=
  ⟨c8_tick, by rw [c8_stage]; decide, c8_bfs_none, by decide⟩

/-- Witness for C8 (amended), at the same concrete tick. -/
theorem C8_unreachable_keeps_stale_path_witness :
    c8ghost'.path = c8ghost.path ∧
    (c8ghost.path.length ≤ c8ghost.path_index →
      c8ghost'.pos = c8ghost.pos ∧ c8ghost'.tile = c8ghost.tile) :=
  C8_unreachable_keeps_stale_path 3 10 (mkRat 1 10) (9, 9) (0, 0)
    c8ghost c8ghost' c8_tick (by rw [c8_stage]; decide) c8_bfs_none

/-- Non-colliding ghosts at the head of the list are passed over
unchanged. -/
theorem resolve_skip (pstart : Tile) (p : Player) (st : GState) (timer : ℚ) :
    ∀ (gsA : List Ghost) (done rest : List Ghost),
    (∀ g' ∈ gsA, collideB p g' = false) →
    resolveGhosts pstart p st timer done (gsA ++ rest) =
      resolveGhosts pstart p st timer (done ++ gsA) rest := by
  intro gsA
  induction gsA with
  | nil => intro done rest _; simp
  | cons a tl ih =>
      intro done rest hnc
      have ha : ¬ collideB p a = true := by
        rw [hnc a (List.mem_cons_self a tl)]
        exact Bool.false_ne_true
      show resolveGhosts pstart p st timer done (a :: (tl ++ rest)) = _
      rw [show resolveGhosts pstart p st timer done (a :: (tl ++ rest)) =
          resolveGhosts pstart p st timer (done ++ [a]) (tl ++ rest) from by
        simp only [resolveGhosts]
        rw [if_neg ha]]
      rw [ih (done ++ [a]) rest
        (fun g' hg' => hnc g' (List.mem_cons_of_mem a hg'))]
      rw [List.append_cons done a tl]

/-- **C2 (amended).**  When the player collides with the first pursuer in
list order whose mode is scripted-zone or active-pursuit during the active
phase (any earlier pursuers in the list not colliding at all), the player's
lives decrease by exactly one.  If the lives reach 0 the phase becomes
terminal and nothing else is touched; otherwise the phase becomes countdown
(timer 1.5), the player alone is reset to the round-start tile/position with
its direction cleared, and *every* pursuer — captured ones included — keeps
its current tile but has its position snapped to that tile's centre, its
path cleared, and its mode forced to scripted-zone.  The loop breaks at this
first such collision. -/
theorem C2_life_loss (pstart : Tile) (p : Player) (st : GState) (timer : ℚ)
    (gsA gsB : List Ghost) (g : Ghost)
    (hA : ∀ g' ∈ gsA, collideB p g' = false)
    (hc : collideB p g = true) (hf : g.mode ≠ Mode.frightened)
    (he : g.mode ≠ Mode.eaten) :
    resolveGhosts pstart p st timer [] (gsA ++ g :: gsB) =
      (if p.lives - 1 ≤ 0 then
        ({ p with lives := p.lives - 1 }, gsA ++ g :: gsB,
          GState.gameover, timer)
      else
        ({ p with lives := p.lives - 1, pos := tile_center pstart, tile := pstart, dir := (0, 0) },
          (gsA ++ g :: gsB).map softReset, GState.ready, mkRat 3 2)) := by
  rw [resolve_skip pstart p st timer gsA [] (g :: gsB) hA]
  simp only [List.nil_append]
  show resolveGhosts pstart p st timer gsA (g :: gsB) = _
  simp only [resolveGhosts]
  rw [if_pos hc]
  rw [if_neg (by simpa using hf)]
  rw [if_pos (by simpa using he)]

/-- The colliding scripted-zone pursuer of the concrete C2 scenario: blinky
away from its round-start tile, one pixel from the player. -/
def c2ghostA : Ghost :=
  { mkGhost "blinky" (13, 13) (0, 26) with
    tile := (1, 2)
    pos := (25, 24) }

/-- A captured pursuer far away, mid-way home. -/
def c2ghostB : Ghost :=
  { mkGhost "pinky" (13, 14) (0, 1) with
    tile := (9, 9)
    pos := tile_center (9, 9)
    mode := Mode.eaten }

/-- The concrete player of the C2 scenario (3 lives, standing at `(1,1)`). -/
def c2player : Player :=
  { mkPlayer player_start with
    tile := (1, 1)
    pos := (24, 24)
    dir := (1, 0)
    score := 10 }

/-- **C2 (counterexample).**  The claim's reset behaviour is false on the
code: after the player (3 lives) collides with the scripted-zone pursuer,
the code neither resets any pursuer to its round-start tile (blinky stays
at `(1,2)`, not `(13,13)`) nor lets captured pursuers keep progressing home
(the eaten pursuer is forced back to scripted-zone). -/
theorem C2_counterexample :
    collideB c2player c2ghostA = true ∧
    c2ghostA.mode = Mode.scatter ∧ c2ghostB.mode = Mode.eaten ∧
    c2player.lives = 3 ∧
    (resolveGhosts player_start c2player GState.playing 2 []
        [c2ghostA, c2ghostB]).2.1 =
      [softReset c2ghostA, softReset c2ghostB] ∧
    (softReset c2ghostA).tile = (1, 2) ∧
    ((1 : ℤ), (2 : ℤ)) ≠ ((13 : ℤ), (13 : ℤ)) ∧
    (softReset c2ghostB).mode = Mode.scatter := by
  refine ⟨by decide, by decide, by decide, by decide, ?_, by decide, by decide,
    by decide⟩
  have h := C2_life_loss player_start c2player GState.playing 2 []
    [c2ghostB] c2ghostA (by intro g' hg'; exact absurd hg' (List.not_mem_nil g'))
    (by decide) (by decide) (by decide)
  simp only [List.nil_append] at h
  rw [h]
  rw [if_neg (show ¬ c2player.lives - 1 ≤ 0 from by decide)]
  decide

/-- Witness for C2 (amended): the same concrete scenario. -/
theorem C2_life_loss_witness :
    collideB c2player c2ghostA = true ∧
    resolveGhosts player_start c2player GState.playing 2 []
        ([] ++ c2ghostA :: [c2ghostB]) =
      (if c2player.lives - 1 ≤ 0 then
        ({ c2player with lives := c2player.lives - 1 }, [] ++ c2ghostA :: [c2ghostB],
          GState.gameover, 2)
      else
        ({ c2player with lives := c2player.lives - 1, pos := tile_center player_start, tile := player_start, dir := (0, 0) },
          ([] ++ c2ghostA :: [c2ghostB]).map softReset, GState.ready, mkRat 3 2)) :=
  ⟨by decide, C2_life_loss player_start c2player GState.playing 2 []
    [c2ghostB] c2ghostA (by intro g' hg'; exact absurd hg' (List.not_mem_nil g'))
    (by decide) (by decide) (by decide)⟩

/-- A player mid-transit between `(1,1)` and `(1,2)` (position not at the
tile centre), moving right, with a buffered request to turn down. -/
def c4player : Player :=
  { mkPlayer player_start with
    tile := (1, 1)
    pos := (28, 24)
    dir := (1, 0)
    next_dir := (0, 1) }

/-- **C4 (counterexample).**  The claim that the buffered direction is
applied only when the player is exactly tile-aligned is false: the turn
code checks only that the tile adjacent to the *logical* tile is open and
never looks at the position, so this mid-transit player (position `(28,24)`,
centre `(24,24)`) still has its active direction replaced by the buffered
one. -/
theorem C4_counterexample :
    (playerTurn c4player).dir = c4player.next_dir ∧
    (playerTurn c4player).dir ≠ c4player.dir ∧
    c4player.pos ≠ tile_center c4player.tile := by
  refine ⟨?_, by decide, by decide⟩
  unfold playerTurn
  rw [if_pos (by decide : c4player.next_dir ≠ ((0 : ℤ), (0 : ℤ)))]
  rw [if_pos (by decide)]

/-- **C4 (amended).**  On every tick the buffered direction replaces the
active one exactly when it is nonzero and the tile adjacent to the player's
logical tile in the buffered direction is open — regardless of whether the
player is tile-aligned; in every other case the active direction is kept.
When the (possibly updated) direction is zero or its tile ahead is blocked,
the player does not move this tick. -/
theorem C4_turn_rule (p p' : Player) (h : PlayerStep p p') :
    (p'.dir = if p.next_dir ≠ (0, 0) ∧
        openT (p.tile.1 + p.next_dir.2, p.tile.2 + p.next_dir.1) = true
      then p.next_dir else p.dir) ∧
    ((playerTurn p).moveTarget = none → p'.pos = p.pos ∧ p'.tile = p.tile) := by
  have hturn : (playerTurn p).dir = (if p.next_dir ≠ (0, 0) ∧
      openT (p.tile.1 + p.next_dir.2, p.tile.2 + p.next_dir.1) = true
    then p.next_dir else p.dir) ∧
      (playerTurn p).pos = p.pos ∧ (playerTurn p).tile = p.tile ∧
      (playerTurn p).next_dir = p.next_dir := by
    unfold playerTurn
    by_cases h0 : p.next_dir ≠ (0, 0)
    · rw [if_pos h0]
      by_cases hop : openT (p.tile.1 + p.next_dir.2, p.tile.2 + p.next_dir.1) = true
      · rw [if_pos (show (in_bounds (p.tile.1 + p.next_dir.2, p.tile.2 + p.next_dir.1) &&
            !is_wall (mapChar (p.tile.1 + p.next_dir.2, p.tile.2 + p.next_dir.1))) = true
          from hop)]
        rw [if_pos ⟨h0, hop⟩]
        exact ⟨rfl, rfl, rfl, rfl⟩
      · rw [if_neg (show ¬ (in_bounds (p.tile.1 + p.next_dir.2, p.tile.2 + p.next_dir.1) &&
            !is_wall (mapChar (p.tile.1 + p.next_dir.2, p.tile.2 + p.next_dir.1))) = true
          from hop)]
        rw [if_neg (fun hand => hop hand.2)]
        exact ⟨rfl, rfl, rfl, rfl⟩
    · rw [if_neg h0, if_neg (fun hand => h0 hand.1)]
      exact ⟨rfl, rfl, rfl, rfl⟩
  unfold PlayerStep at h
  rcases hmt : (playerTurn p).moveTarget with - | t
  · rw [hmt] at h
    have h2 : p' = playerTurn p := h
    rw [h2]
    exact ⟨hturn.1, fun _ => ⟨hturn.2.1, hturn.2.2.1⟩⟩
  · rw [hmt] at h
    have h2 : p' = { playerTurn p with pos := tile_center t, tile := t } ∨
        ((playerTurn p).pos ≠ tile_center t ∧ ∃ s : ℚ, 0 ≤ s ∧ s < 1 ∧
          p' = { playerTurn p with
                 pos := ((playerTurn p).pos.1 +
                           s * ((tile_center t).1 - (playerTurn p).pos.1),
                         (playerTurn p).pos.2 +
                           s * ((tile_center t).2 - (playerTurn p).pos.2)) }) := h
    constructor
    · rcases h2 with h2 | ⟨-, s, -, -, h2⟩ <;> rw [h2] <;> exact hturn.1
    · intro hnone
      exact absurd hnone (fun hx => Option.noConfusion hx)

/-- A tile-centred player moving right with no buffered request, used to
witness the amended C4 rule (its tick snaps it to the next tile). -/
def c4snap : Player :=
  { mkPlayer player_start with
    tile := (1, 1)
    pos := (24, 24)
    dir := (1, 0) }

theorem c4snap_step :
    PlayerStep c4snap { c4snap with pos := (40, 24), tile := (1, 2) } := by
  show PlayerStep c4snap _
  unfold PlayerStep
  rw [show (playerTurn c4snap).moveTarget = some (1, 2) from by decide]
  exact Or.inl (by decide)

/-- Witness for C4 (amended) at the concrete snap step. -/
theorem C4_turn_rule_witness :
    (({ c4snap with pos := (40, 24), tile := (1, 2) } : Player).dir =
      if c4snap.next_dir ≠ (0, 0) ∧
          openT (c4snap.tile.1 + c4snap.next_dir.2,
            c4snap.tile.2 + c4snap.next_dir.1) = true
        then c4snap.next_dir else c4snap.dir) ∧
    ((playerTurn c4snap).moveTarget = none →
      ({ c4snap with pos := (40, 24), tile := (1, 2) } : Player).pos = c4snap.pos ∧
      ({ c4snap with pos := (40, 24), tile := (1, 2) } : Player).tile = c4snap.tile) :=
  C4_turn_rule c4snap _ c4snap_step

/-- The pixel footprint of a tile: the half-open `16 × 16` pixel box the
drawing code fills for it (`pygame.Rect(c*TILE, r*TILE, TILE, TILE)`).  The
boxes tile the plane, so every position lies in exactly one footprint. -/
def inFootprint (pos : ℚ × ℚ) (t : Tile) : Prop :=
  ((16 * t.2 : ℤ) : ℚ) ≤ pos.1 ∧ pos.1 < ((16 * t.2 : ℤ) : ℚ) + 16 ∧
  ((16 * t.1 : ℤ) : ℚ) ≤ pos.2 ∧ pos.2 < ((16 * t.1 : ℤ) : ℚ) + 16

instance (pos : ℚ × ℚ) (t : Tile) : Decidable (inFootprint pos t) := by
  unfold inFootprint; infer_instance

/-- A position lies in at most one tile footprint. -/
theorem inFootprint_unique {pos : ℚ × ℚ} {a b : Tile}
    (ha : inFootprint pos a) (hb : inFootprint pos b) : a = b := by
  obtain ⟨a1, a2⟩ := a
  obtain ⟨b1, b2⟩ := b
  obtain ⟨h1, h2, h3, h4⟩ := ha
  obtain ⟨h5, h6, h7, h8⟩ := hb
  have j1 : (16 * a2 : ℤ) < 16 * b2 + 16 := by
    exact_mod_cast lt_of_le_of_lt h1 h6
  have j2 : (16 * b2 : ℤ) < 16 * a2 + 16 := by
    exact_mod_cast lt_of_le_of_lt h5 h2
  have j3 : (16 * a1 : ℤ) < 16 * b1 + 16 := by
    exact_mod_cast lt_of_le_of_lt h3 h8
  have j4 : (16 * b1 : ℤ) < 16 * a1 + 16 := by
    exact_mod_cast lt_of_le_of_lt h7 h4
  have e1 : a1 = b1 := by omega
  have e2 : a2 = b2 := by omega
  rw [e1, e2]

/-- One ghost tick with arbitrary tick inputs: any wall-clock instant and
fright deadline, any nonnegative `dt`, any *open* player tile (the player's
logical tile is always a walkable tile) and any in-bounds random tile. -/
def GhostTickAny (g g' : Ghost) : Prop :=
  ∃ tWall fu dt : ℚ, ∃ pt rt : Tile,
    openT pt = true ∧ GhostTick tWall fu dt pt rt g g'

/-- Blinky's round-start state. -/
def blinky0 : Ghost := mkGhost "blinky" (13, 13) (0, 26)

/-- Ghost states reachable from blinky's round start by a finite sequence
of tick updates. -/
def GhostReachable (g : Ghost) : Prop :=
  Relation.ReflTransGen GhostTickAny blinky0 g

/-- Iterated snap-move ticks over a list of (wall time, player tile) pairs. -/
def runSnaps (fu dt : ℚ) (rt : Tile) : List (ℚ × Tile) → Ghost → Ghost
  | [], g => g
  | x :: rest, g => runSnaps fu dt rt rest (ghostTickSnap x.1 fu dt x.2 rt g)

theorem runSnaps_reachable (fu dt : ℚ) (rt : Tile) (hrt : in_bounds rt = true)
    (hdt : 0 ≤ dt) :
    ∀ (l : List (ℚ × Tile)) (g : Ghost), (∀ x ∈ l, openT x.2 = true) →
      Relation.ReflTransGen GhostTickAny g (runSnaps fu dt rt l g)
  | [], _, _ => Relation.ReflTransGen.refl
  | x :: rest, g, hl =>
      Relation.ReflTransGen.head
        ⟨x.1, fu, dt, x.2, rt, hl x (List.mem_cons_self x rest),
          ghostTickSnap_is_tick x.1 fu dt x.2 rt hrt hdt g⟩
        (runSnaps_reachable fu dt rt hrt hdt rest _
          (fun y hy => hl y (List.mem_cons_of_mem x hy)))

/-- Wall-clock instants and player tiles of a 29-tick drive of blinky from
its round start to the centre of tile `(5,7)` (wall clock advancing by the
tick length `0.1 s`; every player tile is a walkable tile the player can
occupy). -/
def c5trace : List (ℚ × Tile) :=
  [ (7, (12, 13)), (mkRat 71 10, (12, 13)), (mkRat 72 10, (12, 13))
  , (mkRat 73 10, (11, 13)), (mkRat 74 10, (11, 13))
  , (mkRat 75 10, (11, 12)), (mkRat 76 10, (11, 12)), (mkRat 77 10, (11, 12))
  , (mkRat 78 10, (10, 12)), (mkRat 79 10, (10, 12))
  , (8, (9, 12))
  , (mkRat 81 10, (8, 12)), (mkRat 82 10, (8, 12))
  , (mkRat 83 10, (8, 11))
  , (mkRat 84 10, (8, 10)), (mkRat 85 10, (8, 10))
  , (mkRat 86 10, (8, 9))
  , (mkRat 87 10, (7, 9)), (mkRat 88 10, (7, 9))
  , (mkRat 89 10, (6, 9)), (9, (6, 9)), (mkRat 91 10, (6, 9))
  , (mkRat 92 10, (5, 9)), (mkRat 93 10, (5, 9))
  , (mkRat 94 10, (5, 8)), (mkRat 95 10, (5, 8)), (mkRat 96 10, (5, 8))
  , (mkRat 97 10, (5, 7)), (mkRat 98 10, (5, 7)) ]

/-- Blinky after the 29 ticks of `c5trace`: at the centre of `(5,7)` with
its path exhausted. -/
def c5g29 : Ghost :=
  { name := "blinky", tile := (5, 7), pos := (120, 88), radius := 7,
    mode := .chase, scatter_target := (0, 26), target := (5, 7),
    path := [(6, 8), (5, 8), (5, 7)], path_index := 3,
    speed := GHOST_SPEED, fright_timer := 0 }

theorem c5_run : runSnaps 0 (mkRat 1 10) (0, 0) c5trace blinky0 = c5g29 := by
  decide

/-- The pre-movement stages of the next tick (player now at `(6,9)`): the
exhausted path forces a recalculation, the position `(120, 88)` — the exact
centre of tile `(5,7)` — rounds to the BFS start
`(round(88/16), round(120/16)) = (6, 8)` (half-to-even sends `5.5` to `6`
and `7.5` to `8`), which is a *wall* tile, and BFS returns the path
`[(6,8), (6,9)]` starting inside that wall. -/
def c5gPre : Ghost :=
  { name := "blinky", tile := (5, 7), pos := (120, 88), radius := 7,
    mode := .chase, scatter_target := (0, 26), target := (6, 9),
    path := [(6, 8), (6, 9)], path_index := 1,
    speed := GHOST_SPEED, fright_timer := 0 }

theorem c5_pre :
    ghostPre (mkRat 99 10) 0 (mkRat 1 10) (6, 9) (0, 0) c5g29 = c5gPre := by
  decide

/-- Blinky after a partial move (fraction `3/5`) towards the centre of
`(6,9)`: the position `(696/5, 488/5) = (139.2, 97.6)` lies strictly inside
the footprint of the wall tile `(6,8)`. -/
def c5bad : Ghost :=
  { c5gPre with pos := (mkRat 696 5, mkRat 488 5) }

theorem c5_tick :
    GhostTick (mkRat 99 10) 0 (mkRat 1 10) (6, 9) (0, 0) c5g29 c5bad := by
  refine ⟨by decide, by decide, ?_⟩
  rw [c5_pre]
  unfold Ghost.moveRel
  rw [dif_pos (by decide : c5gPre.path_index < c5gPre.path.length)]
  refine Or.inr ⟨by decide, mkRat 3 5, by decide, by decide, ?_⟩
  decide

theorem c5_reachable : GhostReachable c5bad := by
  have h1 : Relation.ReflTransGen GhostTickAny blinky0 c5g29 := by
    have h0 := runSnaps_reachable 0 (mkRat 1 10) (0, 0) (by decide) (by decide)
      c5trace blinky0 (by decide)
    rwa [c5_run] at h0
  exact h1.tail ⟨mkRat 99 10, 0, mkRat 1 10, (6, 9), (0, 0), by decide, c5_tick⟩

/-- The five values `Player.dir` and `Player.next_dir` range over: zero and
the four unit vectors the key handler assigns. -/
def dirSet : List (ℤ × ℤ) := [(0, 0), (-1, 0), (1, 0), (0, -1), (0, 1)]

/-- Horizontal pixel offset of the player's position from the centre of its
logical tile. -/
def offx (p : Player) : ℚ := p.pos.1 - (tile_center p.tile).1

/-- Vertical pixel offset of the player's position from the centre of its
logical tile. -/
def offy (p : Player) : ℚ := p.pos.2 - (tile_center p.tile).2

/-- The player-motion invariant: the logical tile is walkable, both
direction fields are unit vectors or zero, the offset from the tile centre
stays inside the open diamond `|dx| + |dy| < 16`, and whenever the offset
leans towards a side, the neighbouring tile on that side is walkable. -/
def PInv (p : Player) : Prop :=
  openT p.tile = true ∧ p.dir ∈ dirSet ∧ p.next_dir ∈ dirSet ∧
  offx p + offy p < 16 ∧ offx p - offy p < 16 ∧
  (-offx p) + offy p < 16 ∧ (-offx p) - offy p < 16 ∧
  (0 < offx p → openT (p.tile.1, p.tile.2 + 1) = true) ∧
  (offx p < 0 → openT (p.tile.1, p.tile.2 - 1) = true) ∧
  (0 < offy p → openT (p.tile.1 + 1, p.tile.2) = true) ∧
  (offy p < 0 → openT (p.tile.1 - 1, p.tile.2) = true)

theorem tile_center_1 (t : Tile) : (tile_center t).1 = 16 * (t.2 : ℚ) + 8 := by
  show ((t.2 * 16 + 8 : ℤ) : ℚ) = 16 * (t.2 : ℚ) + 8
  push_cast
  ring

theorem tile_center_2 (t : Tile) : (tile_center t).2 = 16 * (t.1 : ℚ) + 8 := by
  show ((t.1 * 16 + 8 : ℤ) : ℚ) = 16 * (t.1 : ℚ) + 8
  push_cast
  ring

/-- A point moved fractionally towards a bounded target keeps a strict
linear bound. -/
theorem seg_bound {w z s : ℚ} (hw : w < 16) (hz : z ≤ 16) (h0 : 0 ≤ s)
    (h1 : s < 1) : (1 - s) * w + s * z < 16 := by
  nlinarith [mul_pos (by linarith : (0:ℚ) < 1 - s) (by linarith : (0:ℚ) < 16 - w),
    mul_nonneg h0 (by linarith : (0:ℚ) ≤ 16 - z)]

/-- A positive convex step towards a nonpositive target must have started
positive. -/
theorem sign_pos_carry {a v s : ℚ} (h0 : 0 ≤ s) (h1 : s < 1) (hv : v ≤ 0)
    (h : 0 < (1 - s) * a + s * v) : 0 < a := by
  nlinarith [mul_nonneg h0 (by linarith : (0:ℚ) ≤ -v),
    (by linarith : (0:ℚ) < 1 - s)]

/-- A negative convex step towards a nonnegative target must have started
negative. -/
theorem sign_neg_carry {a v s : ℚ} (h0 : 0 ≤ s) (h1 : s < 1) (hv : 0 ≤ v)
    (h : (1 - s) * a + s * v < 0) : a < 0 := by
  nlinarith [mul_nonneg h0 hv, (by linarith : (0:ℚ) < 1 - s)]

/-- The invariant only reads `pos`, `tile`, `dir` and `next_dir`. -/
theorem PInv_frame {p p' : Player} (h : PInv p) (hpos : p'.pos = p.pos)
    (htile : p'.tile = p.tile) (hdir : p'.dir ∈ dirSet)
    (hnext : p'.next_dir ∈ dirSet) : PInv p' := by
  obtain ⟨ho, _, _, h2, h3, h4, h5, c1, c2, c3, c4⟩ := h
  have hox : offx p' = offx p := by rw [offx, offx, hpos, htile]
  have hoy : offy p' = offy p := by rw [offy, offy, hpos, htile]
  refine ⟨by rw [htile]; exact ho, hdir, hnext, ?_, ?_, ?_, ?_, ?_, ?_, ?_, ?_⟩
  · rw [hox, hoy]; exact h2
  · rw [hox, hoy]; exact h3
  · rw [hox, hoy]; exact h4
  · rw [hox, hoy]; exact h5
  · intro hh; rw [hox] at hh; rw [htile]; exact c1 hh
  · intro hh; rw [hox] at hh; rw [htile]; exact c2 hh
  · intro hh; rw [hoy] at hh; rw [htile]; exact c3 hh
  · intro hh; rw [hoy] at hh; rw [htile]; exact c4 hh

/-- Key input only replaces `next_dir` by one of the four unit vectors. -/
theorem PInv_input {p p' : Player} (h : PInv p) (hi : PlayerInput p p') :
    PInv p' := by
  rcases hi with rfl | ⟨d, hd, rfl⟩
  · exact h
  · refine PInv_frame h rfl rfl h.2.1 ?_
    fin_cases hd <;> simp [dirSet]

theorem playerTurn_cases (p : Player) :
    playerTurn p = p ∨ playerTurn p = { p with dir := p.next_dir } := by
  unfold playerTurn
  by_cases h0 : p.next_dir ≠ (0, 0)
  · rw [if_pos h0]
    by_cases h1 : (in_bounds (p.tile.1 + p.next_dir.2, p.tile.2 + p.next_dir.1) &&
        !is_wall (mapChar (p.tile.1 + p.next_dir.2, p.tile.2 + p.next_dir.1))) = true
    · rw [if_pos h1]; exact Or.inr rfl
    · rw [if_neg h1]; exact Or.inl rfl
  · rw [if_neg h0]; exact Or.inl rfl

/-- The turn attempt preserves the invariant: it only ever copies
`next_dir` (itself constrained by the invariant) into `dir`. -/
theorem PInv_turn {p : Player} (h : PInv p) : PInv (playerTurn p) := by
  rcases playerTurn_cases p with he | he <;> rw [he]
  · exact h
  · exact PInv_frame h rfl rfl h.2.2.1 h.2.2.1

/-- What a successful movement-target computation guarantees. -/
theorem moveTarget_some {q : Player} {t : Tile} (h : q.moveTarget = some t) :
    q.dir ≠ (0, 0) ∧ t = (q.tile.1 + q.dir.2, q.tile.2 + q.dir.1) ∧
      openT t = true := by
  unfold Player.moveTarget at h
  by_cases h0 : q.dir = (0, 0)
  · rw [if_pos h0] at h
    exact absurd h (by simp)
  · rw [if_neg h0] at h
    by_cases h1 : (!in_bounds (q.tile.1 + q.dir.2, q.tile.2 + q.dir.1) ||
        is_wall (mapChar (q.tile.1 + q.dir.2, q.tile.2 + q.dir.1))) = true
    · rw [if_pos h1] at h
      exact absurd h (by simp)
    · rw [if_neg h1] at h
      injection h with hinj
      refine ⟨h0, hinj.symm, ?_⟩
      rw [← hinj]
      simp only [Bool.or_eq_true, Bool.not_eq_true', not_or] at h1
      simp [openT, h1.1, h1.2]

/-- One `Player.update(dt)` call preserves the invariant. -/
theorem PInv_step {p p' : Player} (h : PInv p) (hs : PlayerStep p p') :
    PInv p' := by
  have hq : PInv (playerTurn p) := PInv_turn h
  unfold PlayerStep at hs
  rcases hmt : (playerTurn p).moveTarget with - | t
  · rw [hmt] at hs
    have he : p' = playerTurn p := hs
    rw [he]
    exact hq
  · rw [hmt] at hs
    obtain ⟨hdne, htt, hopen⟩ := moveTarget_some hmt
    obtain ⟨hoq, hdq, hnq, hb1, hb2, hb3, hb4, hc1, hc2, hc3, hc4⟩ := hq
    have hs2 : p' = { playerTurn p with pos := tile_center t, tile := t } ∨
        ((playerTurn p).pos ≠ tile_center t ∧ ∃ s : ℚ, 0 ≤ s ∧ s < 1 ∧
          p' = { playerTurn p with
                 pos := ((playerTurn p).pos.1 +
                           s * ((tile_center t).1 - (playerTurn p).pos.1),
                         (playerTurn p).pos.2 +
                           s * ((tile_center t).2 - (playerTurn p).pos.2)) }) := hs
    rcases hs2 with he | ⟨-, s, hs0, hs1, he⟩
    · -- snap move: the player lands exactly on the centre of the open tile t
      have hp1 : p'.pos = tile_center t := by rw [he]
      have hpt : p'.tile = t := by rw [he]
      have hpd : p'.dir = (playerTurn p).dir := by rw [he]
      have hpn : p'.next_dir = (playerTurn p).next_dir := by rw [he]
      have hox : offx p' = 0 := by rw [offx, hp1, hpt]; ring
      have hoy : offy p' = 0 := by rw [offy, hp1, hpt]; ring
      refine ⟨?_, ?_, ?_, ?_, ?_, ?_, ?_, ?_, ?_, ?_, ?_⟩
      · rw [hpt]; exact hopen
      · rw [hpd]; exact hdq
      · rw [hpn]; exact hnq
      · rw [hox, hoy]; norm_num
      · rw [hox, hoy]; norm_num
      · rw [hox, hoy]; norm_num
      · rw [hox, hoy]; norm_num
      · rw [hox]; intro hh; exact absurd hh (by norm_num)
      · rw [hox]; intro hh; exact absurd hh (by norm_num)
      · rw [hoy]; intro hh; exact absurd hh (by norm_num)
      · rw [hoy]; intro hh; exact absurd hh (by norm_num)
    · -- in-transit move towards the centre of t
      have hp1 : p'.pos.1 = (playerTurn p).pos.1 +
          s * ((tile_center t).1 - (playerTurn p).pos.1) := by rw [he]
      have hp2 : p'.pos.2 = (playerTurn p).pos.2 +
          s * ((tile_center t).2 - (playerTurn p).pos.2) := by rw [he]
      have hpt : p'.tile = (playerTurn p).tile := by rw [he]
      have hpd : p'.dir = (playerTurn p).dir := by rw [he]
      have hpn : p'.next_dir = (playerTurn p).next_dir := by rw [he]
      have hdc : (playerTurn p).dir = (-1, 0) ∨ (playerTurn p).dir = (1, 0) ∨
          (playerTurn p).dir = (0, -1) ∨ (playerTurn p).dir = (0, 1) := by
        simp only [dirSet, List.mem_cons] at hdq
        rcases hdq with h9 | h9 | h9 | h9 | h9 | h9
        · exact absurd h9 hdne
        · exact Or.inl h9
        · exact Or.inr (Or.inl h9)
        · exact Or.inr (Or.inr (Or.inl h9))
        · exact Or.inr (Or.inr (Or.inr h9))
        · exact absurd h9 (List.not_mem_nil _)
      rcases hdc with hd | hd | hd | hd
      · -- moving left: t is the tile to the left of the logical tile
        have ht1 : t.1 = (playerTurn p).tile.1 := by
          rw [htt, hd]
          show (playerTurn p).tile.1 + 0 = (playerTurn p).tile.1
          ring
        have ht2 : t.2 = (playerTurn p).tile.2 - 1 := by
          rw [htt, hd]
          show (playerTurn p).tile.2 + (-1) = (playerTurn p).tile.2 - 1
          ring
        have hopen2 : openT ((playerTurn p).tile.1,
            (playerTurn p).tile.2 - 1) = true := by
          have hpair : ((playerTurn p).tile.1, (playerTurn p).tile.2 - 1) = t := by
            rw [← ht1, ← ht2]
          rw [hpair]; exact hopen
        have hcx : (tile_center t).1 =
            (tile_center (playerTurn p).tile).1 + 16 * (-1) := by
          rw [tile_center_1, tile_center_1, ht2]; push_cast; ring
        have hcy : (tile_center t).2 =
            (tile_center (playerTurn p).tile).2 + 16 * 0 := by
          rw [tile_center_2, tile_center_2, ht1]; ring
        have hx : offx p' = (1 - s) * offx (playerTurn p) + s * (16 * (-1)) := by
          rw [offx, offx, hp1, hpt, hcx]; ring
        have hy : offy p' = (1 - s) * offy (playerTurn p) + s * (16 * 0) := by
          rw [offy, offy, hp2, hpt, hcy]; ring
        refine ⟨?_, ?_, ?_, ?_, ?_, ?_, ?_, ?_, ?_, ?_, ?_⟩
        · rw [hpt]; exact hoq
        · rw [hpd]; exact hdq
        · rw [hpn]; exact hnq
        · linarith [hx, hy, seg_bound hb1 (show ((-16:ℚ)) ≤ 16 by norm_num) hs0 hs1]
        · linarith [hx, hy, seg_bound hb2 (show ((-16:ℚ)) ≤ 16 by norm_num) hs0 hs1]
        · linarith [hx, hy, seg_bound hb3 (show ((16:ℚ)) ≤ 16 by norm_num) hs0 hs1]
        · linarith [hx, hy, seg_bound hb4 (show ((16:ℚ)) ≤ 16 by norm_num) hs0 hs1]
        · intro hh; rw [hx] at hh
          have hax := sign_pos_carry hs0 hs1 (by norm_num) hh
          rw [hpt]; exact hc1 hax
        · intro hh; rw [hpt]; exact hopen2
        · intro hh; rw [hy] at hh
          have hay := sign_pos_carry hs0 hs1 (by norm_num) hh
          rw [hpt]; exact hc3 hay
        · intro hh; rw [hy] at hh
          have hay := sign_neg_carry hs0 hs1 (by norm_num) hh
          rw [hpt]; exact hc4 hay
      · -- moving right
        have ht1 : t.1 = (playerTurn p).tile.1 := by
          rw [htt, hd]
          show (playerTurn p).tile.1 + 0 = (playerTurn p).tile.1
          ring
        have ht2 : t.2 = (playerTurn p).tile.2 + 1 := by
          rw [htt, hd]
        have hopen2 : openT ((playerTurn p).tile.1,
            (playerTurn p).tile.2 + 1) = true := by
          have hpair : ((playerTurn p).tile.1, (playerTurn p).tile.2 + 1) = t := by
            rw [← ht1, ← ht2]
          rw [hpair]; exact hopen
        have hcx : (tile_center t).1 =
            (tile_center (playerTurn p).tile).1 + 16 * 1 := by
          rw [tile_center_1, tile_center_1, ht2]; push_cast; ring
        have hcy : (tile_center t).2 =
            (tile_center (playerTurn p).tile).2 + 16 * 0 := by
          rw [tile_center_2, tile_center_2, ht1]; ring
        have hx : offx p' = (1 - s) * offx (playerTurn p) + s * (16 * 1) := by
          rw [offx, offx, hp1, hpt, hcx]; ring
        have hy : offy p' = (1 - s) * offy (playerTurn p) + s * (16 * 0) := by
          rw [offy, offy, hp2, hpt, hcy]; ring
        refine ⟨?_, ?_, ?_, ?_, ?_, ?_, ?_, ?_, ?_, ?_, ?_⟩
        · rw [hpt]; exact hoq
        · rw [hpd]; exact hdq
        · rw [hpn]; exact hnq
        · linarith [hx, hy, seg_bound hb1 (show ((16:ℚ)) ≤ 16 by norm_num) hs0 hs1]
        · linarith [hx, hy, seg_bound hb2 (show ((16:ℚ)) ≤ 16 by norm_num) hs0 hs1]
        · linarith [hx, hy, seg_bound hb3 (show ((-16:ℚ)) ≤ 16 by norm_num) hs0 hs1]
        · linarith [hx, hy, seg_bound hb4 (show ((-16:ℚ)) ≤ 16 by norm_num) hs0 hs1]
        · intro hh; rw [hpt]; exact hopen2
        · intro hh; rw [hx] at hh
          have hax := sign_neg_carry hs0 hs1 (by norm_num) hh
          rw [hpt]; exact hc2 hax
        · intro hh; rw [hy] at hh
          have hay := sign_pos_carry hs0 hs1 (by norm_num) hh
          rw [hpt]; exact hc3 hay
        · intro hh; rw [hy] at hh
          have hay := sign_neg_carry hs0 hs1 (by norm_num) hh
          rw [hpt]; exact hc4 hay
      · -- moving up
        have ht1 : t.1 = (playerTurn p).tile.1 - 1 := by
          rw [htt, hd]
          show (playerTurn p).tile.1 + (-1) = (playerTurn p).tile.1 - 1
          ring
        have ht2 : t.2 = (playerTurn p).tile.2 := by
          rw [htt, hd]
          show (playerTurn p).tile.2 + 0 = (playerTurn p).tile.2
          ring
        have hopen2 : openT ((playerTurn p).tile.1 - 1,
            (playerTurn p).tile.2) = true := by
          have hpair : ((playerTurn p).tile.1 - 1, (playerTurn p).tile.2) = t := by
            rw [← ht1, ← ht2]
          rw [hpair]; exact hopen
        have hcx : (tile_center t).1 =
            (tile_center (playerTurn p).tile).1 + 16 * 0 := by
          rw [tile_center_1, tile_center_1, ht2]; ring
        have hcy : (tile_center t).2 =
            (tile_center (playerTurn p).tile).2 + 16 * (-1) := by
          rw [tile_center_2, tile_center_2, ht1]; push_cast; ring
        have hx : offx p' = (1 - s) * offx (playerTurn p) + s * (16 * 0) := by
          rw [offx, offx, hp1, hpt, hcx]; ring
        have hy : offy p' = (1 - s) * offy (playerTurn p) + s * (16 * (-1)) := by
          rw [offy, offy, hp2, hpt, hcy]; ring
        refine ⟨?_, ?_, ?_, ?_, ?_, ?_, ?_, ?_, ?_, ?_, ?_⟩
        · rw [hpt]; exact hoq
        · rw [hpd]; exact hdq
        · rw [hpn]; exact hnq
        · linarith [hx, hy, seg_bound hb1 (show ((-16:ℚ)) ≤ 16 by norm_num) hs0 hs1]
        · linarith [hx, hy, seg_bound hb2 (show ((16:ℚ)) ≤ 16 by norm_num) hs0 hs1]
        · linarith [hx, hy, seg_bound hb3 (show ((-16:ℚ)) ≤ 16 by norm_num) hs0 hs1]
        · linarith [hx, hy, seg_bound hb4 (show ((16:ℚ)) ≤ 16 by norm_num) hs0 hs1]
        · intro hh; rw [hx] at hh
          have hax := sign_pos_carry hs0 hs1 (by norm_num) hh
          rw [hpt]; exact hc1 hax
        · intro hh; rw [hx] at hh
          have hax := sign_neg_carry hs0 hs1 (by norm_num) hh
          rw [hpt]; exact hc2 hax
        · intro hh; rw [hy] at hh
          have hay := sign_pos_carry hs0 hs1 (by norm_num) hh
          rw [hpt]; exact hc3 hay
        · intro hh; rw [hpt]; exact hopen2
      · -- moving down
        have ht1 : t.1 = (playerTurn p).tile.1 + 1 := by
          rw [htt, hd]
        have ht2 : t.2 = (playerTurn p).tile.2 := by
          rw [htt, hd]
          show (playerTurn p).tile.2 + 0 = (playerTurn p).tile.2
          ring
        have hopen2 : openT ((playerTurn p).tile.1 + 1,
            (playerTurn p).tile.2) = true := by
          have hpair : ((playerTurn p).tile.1 + 1, (playerTurn p).tile.2) = t := by
            rw [← ht1, ← ht2]
          rw [hpair]; exact hopen
        have hcx : (tile_center t).1 =
            (tile_center (playerTurn p).tile).1 + 16 * 0 := by
          rw [tile_center_1, tile_center_1, ht2]; ring
        have hcy : (tile_center t).2 =
            (tile_center (playerTurn p).tile).2 + 16 * 1 := by
          rw [tile_center_2, tile_center_2, ht1]; push_cast; ring
        have hx : offx p' = (1 - s) * offx (playerTurn p) + s * (16 * 0) := by
          rw [offx, offx, hp1, hpt, hcx]; ring
        have hy : offy p' = (1 - s) * offy (playerTurn p) + s * (16 * 1) := by
          rw [offy, offy, hp2, hpt, hcy]; ring
        refine ⟨?_, ?_, ?_, ?_, ?_, ?_, ?_, ?_, ?_, ?_, ?_⟩
        · rw [hpt]; exact hoq
        · rw [hpd]; exact hdq
        · rw [hpn]; exact hnq
        · linarith [hx, hy, seg_bound hb1 (show ((16:ℚ)) ≤ 16 by norm_num) hs0 hs1]
        · linarith [hx, hy, seg_bound hb2 (show ((-16:ℚ)) ≤ 16 by norm_num) hs0 hs1]
        · linarith [hx, hy, seg_bound hb3 (show ((16:ℚ)) ≤ 16 by norm_num) hs0 hs1]
        · linarith [hx, hy, seg_bound hb4 (show ((-16:ℚ)) ≤ 16 by norm_num) hs0 hs1]
        · intro hh; rw [hx] at hh
          have hax := sign_pos_carry hs0 hs1 (by norm_num) hh
          rw [hpt]; exact hc1 hax
        · intro hh; rw [hx] at hh
          have hax := sign_neg_carry hs0 hs1 (by norm_num) hh
          rw [hpt]; exact hc2 hax
        · intro hh; rw [hpt]; exact hopen2
        · intro hh; rw [hy] at hh
          have hay := sign_neg_carry hs0 hs1 (by norm_num) hh
          rw [hpt]; exact hc4 hay

/-- Any position satisfying the invariant lies in the footprint of a
walkable tile: the logical tile itself, or the open neighbour the offset
leans towards. -/
theorem PInv_contained {p : Player} (h : PInv p) :
    ∃ t : Tile, openT t = true ∧ inFootprint p.pos t := by
  obtain ⟨ho, _, _, hb1, hb2, hb3, hb4, hc1, hc2, hc3, hc4⟩ := h
  have ex : p.pos.1 = 16 * (p.tile.2 : ℚ) + 8 + offx p := by
    rw [offx, tile_center_1]; ring
  have ey : p.pos.2 = 16 * (p.tile.1 : ℚ) + 8 + offy p := by
    rw [offy, tile_center_2]; ring
  by_cases cx1 : 8 ≤ offx p
  · have hy1 : offy p < 8 := by linarith
    have hy2 : -8 < offy p := by linarith
    refine ⟨(p.tile.1, p.tile.2 + 1), hc1 (by linarith), ?_, ?_, ?_, ?_⟩
    · show ((16 * (p.tile.2 + 1) : ℤ) : ℚ) ≤ p.pos.1
      push_cast; linarith
    · show p.pos.1 < ((16 * (p.tile.2 + 1) : ℤ) : ℚ) + 16
      push_cast; linarith
    · show ((16 * p.tile.1 : ℤ) : ℚ) ≤ p.pos.2
      push_cast; linarith
    · show p.pos.2 < ((16 * p.tile.1 : ℤ) : ℚ) + 16
      push_cast; linarith
  · by_cases cx2 : offx p < -8
    · have hy1 : offy p < 8 := by linarith
      have hy2 : -8 < offy p := by linarith
      refine ⟨(p.tile.1, p.tile.2 - 1), hc2 (by linarith), ?_, ?_, ?_, ?_⟩
      · show ((16 * (p.tile.2 - 1) : ℤ) : ℚ) ≤ p.pos.1
        push_cast; linarith
      · show p.pos.1 < ((16 * (p.tile.2 - 1) : ℤ) : ℚ) + 16
        push_cast; linarith
      · show ((16 * p.tile.1 : ℤ) : ℚ) ≤ p.pos.2
        push_cast; linarith
      · show p.pos.2 < ((16 * p.tile.1 : ℤ) : ℚ) + 16
        push_cast; linarith
    · have ha1 : offx p < 8 := not_le.mp cx1
      have ha2 : -8 ≤ offx p := not_lt.mp cx2
      by_cases cy1 : 8 ≤ offy p
      · refine ⟨(p.tile.1 + 1, p.tile.2), hc3 (by linarith), ?_, ?_, ?_, ?_⟩
        · show ((16 * p.tile.2 : ℤ) : ℚ) ≤ p.pos.1
          push_cast; linarith
        · show p.pos.1 < ((16 * p.tile.2 : ℤ) : ℚ) + 16
          push_cast; linarith
        · show ((16 * (p.tile.1 + 1) : ℤ) : ℚ) ≤ p.pos.2
          push_cast; linarith
        · show p.pos.2 < ((16 * (p.tile.1 + 1) : ℤ) : ℚ) + 16
          push_cast; linarith
      · by_cases cy2 : offy p < -8
        · refine ⟨(p.tile.1 - 1, p.tile.2), hc4 (by linarith), ?_, ?_, ?_, ?_⟩
          · show ((16 * p.tile.2 : ℤ) : ℚ) ≤ p.pos.1
            push_cast; linarith
          · show p.pos.1 < ((16 * p.tile.2 : ℤ) : ℚ) + 16
            push_cast; linarith
          · show ((16 * (p.tile.1 - 1) : ℤ) : ℚ) ≤ p.pos.2
            push_cast; linarith
          · show p.pos.2 < ((16 * (p.tile.1 - 1) : ℤ) : ℚ) + 16
            push_cast; linarith
        · have hy1 : offy p < 8 := not_le.mp cy1
          have hy2 : -8 ≤ offy p := not_lt.mp cy2
          refine ⟨p.tile, ho, ?_, ?_, ?_, ?_⟩
          · show ((16 * p.tile.2 : ℤ) : ℚ) ≤ p.pos.1
            push_cast; linarith
          · show p.pos.1 < ((16 * p.tile.2 : ℤ) : ℚ) + 16
            push_cast; linarith
          · show ((16 * p.tile.1 : ℤ) : ℚ) ≤ p.pos.2
            push_cast; linarith
          · show p.pos.2 < ((16 * p.tile.1 : ℤ) : ℚ) + 16
            push_cast; linarith

/-- The round-start player satisfies the invariant. -/
theorem PInv_start : PInv (mkPlayer player_start) := by
  refine ⟨by decide, by decide, by decide, by decide, by decide, by decide,
    by decide, ?_, ?_, ?_, ?_⟩ <;>
    exact fun hh => absurd hh (by decide)

/-- **C5 (amended, theorem).**  The player half of the claim holds: after
every finite sequence of tick updates (key input then `Player.update`)
starting from the round-start state, the player's position lies within the
footprint of an open (walkable) tile.  The pursuer half of the original
claim is false — see the counterexample. -/
theorem C5_player_in_open_footprint (p : Player)
    (h : Relation.ReflTransGen PlayerTick (mkPlayer player_start) p) :
    ∃ t : Tile, openT t = true ∧ inFootprint p.pos t := by
  refine PInv_contained ?_
  induction h with
  | refl => exact PInv_start
  | tail _ hstep ih =>
      obtain ⟨q, hin, hstep2⟩ := hstep
      exact PInv_step (PInv_input ih hin) hstep2

/-- Witness for C5 (amended) at the round-start state itself. -/
theorem C5_player_in_open_footprint_witness :
    ∃ t : Tile, openT t = true ∧ inFootprint (mkPlayer player_start).pos t :=
  C5_player_in_open_footprint (mkPlayer player_start) Relation.ReflTransGen.refl

/-- **C5 (counterexample).**  The claim is false for pursuers: blinky,
driven from its round start by 30 ordinary ticks (advancing wall clock,
walkable player tiles, in-bounds random tile), reaches a state whose
position lies strictly inside the footprint of the wall tile `(6,8)` — and
hence inside no open tile's footprint.  The cause is the half-to-even
rounding of the pixel position when the BFS start is recomputed: at the
centre of `(5,7)` (pixel `(120, 88)`, i.e. tile coordinates `(5.5, 7.5)`)
the start rounds to the diagonal wall tile `(6,8)`, the returned path
begins inside that wall, and a partial move towards the next path tile
drags the pursuer through the wall's footprint. -/
theorem C5_counterexample :
    ∃ g : Ghost, GhostReachable g ∧ openT (6, 8) = false ∧
      inFootprint g.pos (6, 8) ∧
      ∀ t : Tile, inFootprint g.pos t → openT t = false := by
  refine ⟨c5bad, c5_reachable, by decide, by decide, ?_⟩
  intro t ht
  have he : t = (6, 8) := inFootprint_unique ht (by decide)
  rw [he]
  decide

end ClaimsSession

end PacMan
